import Mathlib

/-!
Verification of the gotanda-pouchdb-server user directory and onlooker
access-control index (`src/users.ts`) against its specification.

The ordered key-value store (LevelDB opened through levelup with JSON value
encoding) is the component's external collaborator.  It is modelled as an
association list from string keys to JSON values, kept in ascending key
order by `Store.put`; LevelDB stores keys in bytewise lexicographic order,
and since UTF-8 byte order coincides with code-point order, `strLt` below
(code-point lexicographic order) is its faithful image.  `db.batch()` chains
ending in `.write()` are modelled by `applyBatch`, which applies the chained
operations in order; the store applies such a batch atomically, so the store
after `applyBatch` is the only state a reader can observe.
-/

namespace Gotanda

/-- One API token entry `{token, name}` of a user record (`users.ts:61`). -/
structure TokenEntry where
  token : String
  name : String
deriving DecidableEq, Repr

/-- GitHub profile data as far as the code inspects it: `id` and `username`
are read by `findOrCreateGithub`, and `_raw`/`_json` are the fields it
deletes before persisting (`users.ts:159-162`). -/
structure Profile where
  id : String
  username : Option String
  rawField : Option String
  jsonField : Option String
deriving DecidableEq, Repr

/-- A user record as validated by the io-ts `User` codec (`users.ts:58-65`):
`gotandaId` and `apiTokens` are required, `github` is optional. -/
structure UserRec where
  gotandaId : String
  apiTokens : List TokenEntry
  github : Option Profile
deriving DecidableEq, Repr

/-- `IUser` (`users.ts:68`): the outward shape of a user record, whose
`apiTokens` field is forced to `undefined` (modelled as `none`). -/
structure IUser where
  gotandaId : String
  apiTokens : Option (List TokenEntry)
  github : Option Profile
deriving DecidableEq, Repr

/-- A stored JSON value: either a plain string (identity mappings, token
mappings and the `'1'` link sentinels) or a user record object. -/
inductive Value where
  | str (s : String)
  | user (u : UserRec)
deriving DecidableEq, Repr

/-- JavaScript truthiness of a stored JSON value: the empty string is falsy,
every other string and every object is truthy. -/
def truthy : Value → Bool
  | .str s => !(s == "")
  | .user _ => true

/-- Code-point comparison of two characters, as a boolean. -/
def chLt (a b : Char) : Bool := decide (a < b)

/-- Lexicographic comparison of character lists: the image of LevelDB's
bytewise key comparison (UTF-8 byte order equals code-point order). -/
def lexLt : List Char → List Char → Bool
  | _, [] => false
  | [], _ :: _ => true
  | a :: as, b :: bs => chLt a b || (a == b && lexLt as bs)

/-- Key comparison on strings (bytewise order of the external store). -/
def strLt (a b : String) : Bool := lexLt a.data b.data

/-- The store: an association list from keys to values, kept in ascending
key order by `Store.put`. -/
abbrev Store := List (String × Value)

namespace Store

/-- `db.get`: `some v` when the key is present; the levelup rejection on a
missing key (caught by the callers' `try`/`catch`) is modelled as `none`. -/
def get (st : Store) (k : String) : Option Value :=
  (st.find? (fun p => p.1 == k)).map (fun p => p.2)

/-- A `put` (from `db.put` or a batch): insert keeping ascending key order,
replacing any existing entry for the key. -/
def put : Store → String → Value → Store
  | [], k, v => [(k, v)]
  | (k', v') :: rest, k, v =>
    if strLt k k' then (k, v) :: (k', v') :: rest
    else if k == k' then (k, v) :: rest
    else (k', v') :: put rest k v

/-- A `del`: remove the entry for a key (a no-op when the key is absent). -/
def del : Store → String → Store
  | [], _ => []
  | p :: rest, k => if p.1 == k then del rest k else p :: del rest k

/-- `db.createKeyStream({gte, lt})`: every key `k` with `gte ≤ k < lt` in
bytewise order, emitted in ascending key order (which is store order, since
the store list is kept sorted). -/
def scanKeys (st : Store) (gte ltb : String) : List String :=
  (st.map (fun p => p.1)).filter (fun k => !strLt k gte && strLt k ltb)

end Store

/-- One operation of a `db.batch()` chain. -/
inductive BatchOp where
  | put (k : String) (v : Value)
  | del (k : String)
deriving DecidableEq, Repr

/-- `batch()….write()`: apply the chained operations in order, atomically. -/
def applyBatch (st : Store) (ops : List BatchOp) : Store :=
  ops.foldl
    (fun s op =>
      match op with
      | .put k v => s.put k v
      | .del k => s.del k)
    st

/-- io-ts `User.decode` (`users.ts:91`): an object of the record shape
decodes; a plain string fails the intersection codec. -/
def decodeUser : Value → Option UserRec
  | .user u => some u
  | .str _ => none

/-- The `allowNonGotandaKey = false` body of `getUser` (`users.ts:88-107`):
fetch and decode, with no chasing of string values (the recursion guard
prevents infinite loop searches).  `getUser_false` below shows that
`getUser st key false` equals this. -/
def getUserBase (st : Store) (key : String) : Option UserRec :=
  match st.get key with
  | none => none
  | some v => decodeUser v

/-- `getUser key allowNonGotandaKey` (`users.ts:88-107`): resolve a key to a
raw user record.  When the stored value is a string (an identity or token
mapping) and `allowNonGotandaKey` is true, use that string as a key and look
again with `allowNonGotandaKey = false` — written here as `getUserBase`, the
unfolding of that recursive call — then decode the result once more
(`users.ts:101-102`), so the indirection is followed exactly once. -/
def getUser (st : Store) (key : String) (allowNonGotandaKey : Bool) : Option UserRec :=
  match st.get key with
  | none => none
  | some v =>
    match decodeUser v with
    | some u => some u
    | none =>
      if allowNonGotandaKey then
        match v with
        | .str s =>
          match getUserBase st s with
          | some u => some u
          | none => none
        | .user _ => none
      else none

/-- `getUserSafe` (`users.ts:113-117`): like `getUser`, but `apiTokens` is
overwritten with `undefined` before the record leaves the module. -/
def getUserSafe (st : Store) (key : String) : Option IUser :=
  match getUser st key true with
  | none => none
  | some u => some { gotandaId := u.gotandaId, apiTokens := none, github := u.github }

/-- The allowlist argument of `findOrCreateGithub` (`users.ts:133-134`):
either `'*'` or a pair of allowed username and id sets. -/
inductive Allowlist where
  | star
  | sets (username : List String) (id : List String)
deriving DecidableEq, Repr

/-- The allowlist check (`users.ts:135-138`): pass when the allowlist is
`'*'`, or when the profile's username is present and allowlisted, or when
its id is allowlisted. -/
def githubAllowed (profile : Profile) : Allowlist → Bool
  | .star => true
  | .sets username id =>
    (match profile.username with
     | some u => username.contains u
     | none => false) || id.contains profile.id

/-- Strip `_raw` and `_json` from the profile before persisting
(`users.ts:159-162`). -/
def sanitizeProfile (p : Profile) : Profile := { p with rawField := none, jsonField := none }

/-- The `while (!newGotandaId)` loop (`users.ts:152-157`): try successive
random draws, prefixed with `gotanda-`, until one is absent from the store.
The unbounded loop is modelled by the `draws` list of outputs of
`base64urlRandom 9`; exhausting it (the loop drawing forever) is `none`. -/
def firstFreeId (st : Store) : List String → Option String
  | [] => none
  | d :: rest =>
    match st.get ("gotanda-" ++ d) with
    | none => some ("gotanda-" ++ d)
    | some _ => firstFreeId st rest

/-- `findOrCreateGithub` (`users.ts:133-167`).  When the identity mapping
`github-<id>` holds a truthy string that resolves to a user, return that
user; otherwise create a fresh record and write it together with the
identity mapping in one batch, returning it with `apiTokens: undefined`. -/
def findOrCreateGithub (st : Store) (profile : Profile) (allowlist : Allowlist)
    (draws : List String) : Store × Option IUser :=
  if !githubAllowed profile allowlist then (st, none)
  else
    let githubId := "github-" ++ profile.id
    let viaHit : Option IUser :=
      match st.get githubId with
      | some v =>
        if truthy v then
          match v with
          | .str s => getUserSafe st s
          | .user _ => none
        else none
      | none => none
    match viaHit with
    | some existing => (st, some existing)
    | none =>
      match firstFreeId st draws with
      | none => (st, none)
      | some newGotandaId =>
        let github := sanitizeProfile profile
        let ret : UserRec := { gotandaId := newGotandaId, apiTokens := [], github := some github }
        (applyBatch st [.put githubId (.str newGotandaId), .put newGotandaId (.user ret)],
         some { gotandaId := newGotandaId, apiTokens := none, github := some github })

/-- `createApiToken` (`users.ts:169-184`).  The random draw of
`base64urlRandom 21` is the `draw` argument; the code deliberately does not
check the resulting `token-<draw>` for collisions.  On success the token
mapping and the grown record are written in one batch. -/
def createApiToken (st : Store) (gotandaId : String) (name : String)
    (draw : String) : Store × Option String :=
  let newToken := "token-" ++ draw
  match getUser st gotandaId true with
  | none => (st, none)
  | some user =>
    let user' : UserRec := { user with apiTokens := user.apiTokens ++ [⟨newToken, name⟩] }
    (applyBatch st [.put newToken (.str gotandaId), .put gotandaId (.user user')],
     some newToken)

/-- `deleteApiToken` (`users.ts:186-208`): fail when the account does not
resolve; succeed without touching the store when the token list is empty or
no entry's name matches; otherwise delete every matching entry's token
mapping and write back the shrunk record, all in one batch.  The source's
single partitioning loop is rendered by the two complementary filters. -/
def deleteApiToken (st : Store) (gotandaId : String) (name : String) : Store × Bool :=
  match getUser st gotandaId true with
  | none => (st, false)
  | some user =>
    if user.apiTokens.length == 0 then (st, true)
    else
      let dels := (user.apiTokens.filter (fun o => o.name == name)).map
        (fun o => BatchOp.del o.token)
      let newApiTokens := user.apiTokens.filter (fun o => !(o.name == name))
      if newApiTokens.length == user.apiTokens.length then (st, true)
      else
        (applyBatch st
          (dels ++ [.put gotandaId (.user { user with apiTokens := newApiTokens })]), true)

/-- `deleteAllApiTokens` (`users.ts:210-220`): fail when the account does
not resolve; succeed without writing when the token list is empty; otherwise
delete every token mapping and write back the emptied record in one batch. -/
def deleteAllApiTokens (st : Store) (gotandaId : String) : Store × Bool :=
  match getUser st gotandaId true with
  | none => (st, false)
  | some user =>
    if user.apiTokens.length == 0 then (st, true)
    else
      (applyBatch st
        (user.apiTokens.map (fun o => BatchOp.del o.token) ++
          [.put gotandaId (.user { user with apiTokens := [] })]), true)

/-- Forward link key `ro/creator/<c>/onlooker/<o>/app/<a>`
(`users.ts:231,239`). -/
def fwdKey (creator onlooker app : String) : String :=
  "ro/creator/" ++ creator ++ "/onlooker/" ++ onlooker ++ "/app/" ++ app

/-- Reverse link key `ro/onlooker/<o>/creator/<c>/app/<a>` (`users.ts:240`). -/
def revKey (creator onlooker app : String) : String :=
  "ro/onlooker/" ++ onlooker ++ "/creator/" ++ creator ++ "/app/" ++ app

/-- `validOnlooker` (`users.ts:229-235`): truthiness of the forward key's
stored value alone; a missing key rejects via the `catch`. -/
def validOnlooker (st : Store) (creator onlooker app : String) : Bool :=
  match st.get (fwdKey creator onlooker app) with
  | some v => truthy v
  | none => false

/-- `addOnlookerApp` (`users.ts:237-243`): one batch putting the sentinel
`'1'` under both the forward and the reverse key; returns `true`. -/
def addOnlookerApp (st : Store) (user onlooker app : String) : Store × Bool :=
  (applyBatch st
    [.put (fwdKey user onlooker app) (.str "1"),
     .put (revKey user onlooker app) (.str "1")], true)

/-- `delOnlookerApp` (`users.ts:245-251`): one batch deleting both keys;
returns `true`. -/
def delOnlookerApp (st : Store) (user onlooker app : String) : Store × Bool :=
  (applyBatch st
    [.del (fwdKey user onlooker app), .del (revKey user onlooker app)], true)

/-- JavaScript `string.split('/')` on the underlying character list. -/
def splitSlash : List Char → List (List Char)
  | [] => [[]]
  | c :: rest =>
    if c = '/' then [] :: splitSlash rest
    else
      match splitSlash rest with
      | [] => [[c]]
      | g :: gs => (c :: g) :: gs

/-- JavaScript `key.split('/')`. -/
def jsSplit (s : String) : List String := (splitSlash s.data).map String.mk

/-- JavaScript array destructuring followed by template interpolation: a
missing element is `undefined`, which a template string renders as the text
`"undefined"`. -/
def jsIdx (parts : List String) (i : Nat) : String := parts.getD i "undefined"

/-- Re-parsing of a scanned key and construction of its mirrored reverse key
(`users.ts:261-262`):
`ro/onlooker/${parts[4]}/creator/${parts[2]}/app/${parts[6]}`. -/
def mirrorKey (key : String) : String :=
  let parts := jsSplit key
  "ro/onlooker/" ++ jsIdx parts 4 ++ "/creator/" ++ jsIdx parts 2 ++ "/app/" ++ jsIdx parts 6

/-- The `gte` bound of `delOnlooker`'s scan (`users.ts:255`):
`ro/creator/<user>/onlooker/<onlooker>/`. -/
def onlPre (user onlooker : String) : String :=
  "ro/creator/" ++ user ++ "/onlooker/" ++ onlooker ++ "/"

/-- The `gte` bound of `delOnlookers`' forward scan (`users.ts:273,293`):
`ro/creator/<user>/`. -/
def crePre (user : String) : String := "ro/creator/" ++ user ++ "/"

/-- The `gte` bound of the reverse scan of `allOnlookerLinks`
(`users.ts:302`): `ro/onlooker/<user>/`. -/
def onlSidePre (user : String) : String := "ro/onlooker/" ++ user ++ "/"

/-- `delOnlooker` (`users.ts:253-269`): scan every key in the half-open range
`[gte, gte ++ '￰')` for `gte = ro/creator/<user>/onlooker/<onlooker>/`,
and in one batch delete each scanned key together with its mirrored reverse
key; returns `true`. -/
def delOnlooker (st : Store) (user onlooker : String) : Store × Bool :=
  let gte := onlPre user onlooker
  let keys := st.scanKeys gte (gte ++ "￰")
  (applyBatch st (keys.flatMap (fun k => [.del k, .del (mirrorKey k)])), true)

/-- `delOnlookers` (`users.ts:271-288`): the same scan-and-delete over the
wider prefix `ro/creator/<user>/`; returns `true`. -/
def delOnlookers (st : Store) (user : String) : Store × Bool :=
  let gte := crePre user
  let keys := st.scanKeys gte (gte ++ "￰")
  (applyBatch st (keys.flatMap (fun k => [.del k, .del (mirrorKey k)])), true)

/-- The result of `allOnlookerLinks`: the granted list (`onlooker`, `app`
pairs) and the received list (`creator`, `app` pairs). -/
structure Links where
  onlookers : List (String × String)
  creators : List (String × String)
deriving DecidableEq, Repr

/-- `allOnlookerLinks` (`users.ts:290-310`): two range scans; the keys of
both are split on `/`, and positions 4 and 6 give the paired identifier and
the app name. -/
def allOnlookerLinks (st : Store) (user : String) : Links :=
  let gteF := crePre user
  let gteR := onlSidePre user
  { onlookers := (st.scanKeys gteF (gteF ++ "￰")).map
      (fun k => (jsIdx (jsSplit k) 4, jsIdx (jsSplit k) 6)),
    creators := (st.scanKeys gteR (gteR ++ "￰")).map
      (fun k => (jsIdx (jsSplit k) 4, jsIdx (jsSplit k) 6)) }

/-- An identifier is safe when it contains no `/` (the spec's safe-alphabet
assumption on account ids and app names, which the key encoding relies on). -/
def SafeId (s : String) : Prop := ('/' : Char) ∉ s.data

instance (s : String) : Decidable (SafeId s) :=
  inferInstanceAs (Decidable (('/' : Char) ∉ s.data))

/-! ### Order lemmas for the key comparison -/

theorem chLt_irrefl (a : Char) : chLt a a = false := by simp [chLt]

theorem chLt_asymm {a b : Char} (h : chLt a b = true) : chLt b a = false := by
  simp only [chLt, decide_eq_true_eq] at h
  simpa [chLt] using lt_asymm h

theorem lexLt_nil_right (l : List Char) : lexLt l [] = false := by cases l <;> rfl

theorem lexLt_nil_cons (b : Char) (bs : List Char) : lexLt [] (b :: bs) = true := rfl

theorem lexLt_cons_cons (a b : Char) (as bs : List Char) :
    lexLt (a :: as) (b :: bs) = (chLt a b || (a == b && lexLt as bs)) := rfl

theorem lexLt_append_self (p t : List Char) : lexLt (p ++ t) p = false := by
  induction p with
  | nil => simpa using lexLt_nil_right t
  | cons c p ih => simp [lexLt_cons_cons, chLt_irrefl, ih]

theorem lexLt_append_left (p u v : List Char) :
    lexLt (p ++ u) (p ++ v) = lexLt u v := by
  induction p with
  | nil => rfl
  | cons c p ih => simp [lexLt_cons_cons, chLt_irrefl, ih]

theorem lexLt_cons_lt {a b : Char} (h : chLt a b = true) (as bs : List Char) :
    lexLt (a :: as) (b :: bs) = true := by
  simp [lexLt_cons_cons, h]

theorem lexLt_irrefl (l : List Char) : lexLt l l = false := by
  simpa using lexLt_append_self l []

theorem strLt_irrefl (s : String) : strLt s s = false := lexLt_irrefl s.data

/-- A key at or above `gte` and below `gte ++ [m]` extends `gte`: the scan
range of a `￰`-terminated prefix scan only ever yields prefixed keys. -/
theorem isPre_of_range {p k : List Char} {m : Char}
    (h1 : lexLt k p = false) (h2 : lexLt k (p ++ [m]) = true) : p <+: k := by
  induction p generalizing k with
  | nil => exact List.nil_prefix
  | cons c p ih =>
    cases k with
    | nil => exact absurd h1 (by simp [lexLt_nil_cons])
    | cons d k =>
      rw [List.cons_append, lexLt_cons_cons] at h2
      rw [lexLt_cons_cons] at h1
      rcases Bool.or_eq_false_iff.mp h1 with ⟨hdc, hrest⟩
      rw [hdc, Bool.false_or] at h2
      obtain ⟨rfl, hlt2⟩ : d = c ∧ lexLt k (p ++ [m]) = true := by simpa using h2
      have hrest' : lexLt k p = false := by simpa using hrest
      exact List.cons_prefix_cons.mpr ⟨rfl, ih hrest' hlt2⟩

/-! ### Store lemmas -/

namespace Store

theorem get_cons (p : String × Value) (st : Store) (k : String) :
    Store.get (p :: st) k = if p.1 == k then some p.2 else st.get k := by
  by_cases h : p.1 == k <;> simp [get, List.find?_cons, h]

theorem get_put_self (st : Store) (k : String) (v : Value) :
    (st.put k v).get k = some v := by
  induction st with
  | nil => simp [put, get, List.find?_cons]
  | cons p st ih =>
    obtain ⟨k', v'⟩ := p
    by_cases h1 : strLt k k' = true
    · simp [put, h1, get_cons]
    · by_cases h2 : (k == k') = true
      · simp [put, h1, h2, get_cons]
      · have h2' : (k' == k) = false :=
          beq_eq_false_iff_ne.mpr (Ne.symm (by simpa using h2))
        simp [put, h1, h2, get_cons, h2', ih]

theorem get_put_ne (st : Store) {k k2 : String} (h : k ≠ k2) (v : Value) :
    (st.put k v).get k2 = st.get k2 := by
  have hk : (k == k2) = false := by simpa using h
  induction st with
  | nil => simp [put, get_cons, hk, get]
  | cons p st ih =>
    obtain ⟨k', v'⟩ := p
    by_cases h1 : strLt k k' = true
    · simp [put, h1, get_cons, hk]
    · by_cases h2 : (k == k') = true
      · have h2' : k' = k := (beq_iff_eq.mp h2).symm
        subst h2'
        simp [put, h1, h2, get_cons, hk]
      · simp [put, h1, h2, get_cons, ih]

theorem get_del_self (st : Store) (k : String) : (st.del k).get k = none := by
  induction st with
  | nil => rfl
  | cons p st ih =>
    by_cases h : (p.1 == k) = true
    · simpa [del, h] using ih
    · simpa [del, h, get_cons] using ih

theorem get_del_ne (st : Store) {k k2 : String} (h : k2 ≠ k) :
    (st.del k).get k2 = st.get k2 := by
  induction st with
  | nil => rfl
  | cons p st ih =>
    by_cases hpk : (p.1 == k) = true
    · have hp2 : (p.1 == k2) = false := by
        have e := beq_iff_eq.mp hpk
        exact beq_eq_false_iff_ne.mpr (fun e2 => h ((e2.symm.trans e).symm ▸ rfl))
      simp [del, hpk, get_cons, hp2, ih]
    · simp [del, hpk, get_cons, ih]

theorem mem_put {st : Store} {k : String} {v : Value} {p : String × Value}
    (h : p ∈ st.put k v) : p = (k, v) ∨ p ∈ st := by
  induction st with
  | nil =>
    simp only [put] at h
    exact Or.inl (by simpa using h)
  | cons q st ih =>
    obtain ⟨k', v'⟩ := q
    by_cases h1 : strLt k k' = true
    · rw [put, if_pos h1] at h
      rcases List.mem_cons.mp h with h' | h'
      · exact Or.inl h'
      · exact Or.inr h'
    · by_cases h2 : (k == k') = true
      · rw [put, if_neg h1, if_pos h2] at h
        rcases List.mem_cons.mp h with h' | h'
        · exact Or.inl h'
        · exact Or.inr (List.mem_cons_of_mem _ h')
      · rw [put, if_neg h1, if_neg h2] at h
        rcases List.mem_cons.mp h with h' | h'
        · exact Or.inr (h' ▸ List.mem_cons_self _ _)
        · rcases ih h' with h'' | h''
          · exact Or.inl h''
          · exact Or.inr (List.mem_cons_of_mem _ h'')

theorem mem_del {st : Store} {k : String} {p : String × Value}
    (h : p ∈ st.del k) : p ∈ st := by
  induction st with
  | nil => exact h
  | cons q st ih =>
    by_cases hq : (q.1 == k) = true
    · rw [del, if_pos hq] at h
      exact List.mem_cons_of_mem _ (ih h)
    · rw [del, if_neg hq] at h
      rcases List.mem_cons.mp h with h' | h'
      · exact h' ▸ List.mem_cons_self _ _
      · exact List.mem_cons_of_mem _ (ih h')

theorem get_isSome_iff {st : Store} {k : String} :
    (st.get k).isSome ↔ ∃ v, (k, v) ∈ st := by
  induction st with
  | nil => simp [get]
  | cons q st ih =>
    obtain ⟨k1, v1⟩ := q
    rw [get_cons]
    by_cases hp : (k1 == k) = true
    · have e : k1 = k := beq_iff_eq.mp hp
      subst e
      simp only [hp, if_pos, Option.isSome_some, true_iff]
      exact ⟨v1, List.mem_cons_self _ _⟩
    · have e : k1 ≠ k := by simpa using hp
      rw [if_neg (by simp [hp]), ih]
      constructor
      · rintro ⟨v, hv⟩
        exact ⟨v, List.mem_cons_of_mem _ hv⟩
      · rintro ⟨v, hv⟩
        rcases List.mem_cons.mp hv with h' | h'
        · exact absurd (congrArg Prod.fst h'.symm) e
        · exact ⟨v, h'⟩

theorem get_eq_none (st : Store) (k : String) (h : ∀ v, (k, v) ∉ st) :
    st.get k = none := by
  by_cases hs : (st.get k).isSome
  · obtain ⟨v, hv⟩ := get_isSome_iff.mp hs
    exact absurd hv (h v)
  · simpa [Option.isSome_iff_ne_none, not_not] using hs

end Store

/-! ### Batch lemmas -/

theorem applyBatch_nil (st : Store) : applyBatch st [] = st := rfl

theorem applyBatch_put_cons (st : Store) (k : String) (v : Value) (ops : List BatchOp) :
    applyBatch st (.put k v :: ops) = applyBatch (st.put k v) ops := rfl

theorem applyBatch_del_cons (st : Store) (k : String) (ops : List BatchOp) :
    applyBatch st (.del k :: ops) = applyBatch (st.del k) ops := rfl

/-- A batch consisting only of deletions removes exactly the listed keys. -/
theorem get_applyBatch_dels (ks : List String) (st : Store) (k : String) :
    (applyBatch st (ks.map .del)).get k = if k ∈ ks then none else st.get k := by
  induction ks generalizing st with
  | nil => simp [applyBatch]
  | cons a ks ih =>
    rw [List.map_cons, applyBatch_del_cons, ih]
    by_cases hk : k = a
    · subst hk
      by_cases hmem : k ∈ ks <;> simp [hmem, Store.get_del_self]
    · by_cases hmem : k ∈ ks <;> simp [hmem, hk, Store.get_del_ne st hk]

/-! ### Key structure lemmas

The link keys concatenate fixed path segments and identifiers with `/`.
Because safe identifiers contain no `/`, a key determines its components:
`chunk_inj` peels one slash-terminated chunk off an encoded key. -/

theorem chunk_inj : ∀ (u : List Char) {u2 v v2 : List Char}, '/' ∉ u → '/' ∉ u2 →
    u ++ '/' :: v = u2 ++ '/' :: v2 → u = u2 ∧ v = v2
  | [], u2, v, v2, _, hu2, h => by
    cases u2 with
    | nil => exact ⟨rfl, by simpa using h⟩
    | cons b u2 =>
      exfalso
      obtain ⟨e, -⟩ : '/' = b ∧ v = u2 ++ '/' :: v2 := by simpa using h
      exact hu2 (by rw [← e]; exact List.mem_cons_self _ _)
  | a :: u, u2, v, v2, hu, hu2, h => by
    cases u2 with
    | nil =>
      exfalso
      obtain ⟨e, -⟩ : a = '/' ∧ u ++ '/' :: v = v2 := by simpa using h
      exact hu (by rw [← e]; exact List.mem_cons_self _ _)
    | cons b u2 =>
      obtain ⟨e, h2⟩ : a = b ∧ u ++ '/' :: v = u2 ++ '/' :: v2 := by simpa using h
      obtain ⟨h3, h4⟩ := chunk_inj u (fun hm => hu (List.mem_cons_of_mem _ hm))
        (fun hm => hu2 (List.mem_cons_of_mem _ hm)) h2
      exact ⟨by rw [e, h3], h4⟩

theorem chunk_pre {u u2 v v2 : List Char} (hu : '/' ∉ u) (hu2 : '/' ∉ u2)
    (h : (u ++ '/' :: v) <+: (u2 ++ '/' :: v2)) : u = u2 ∧ v <+: v2 := by
  obtain ⟨t, ht⟩ := h
  rw [List.append_assoc, List.cons_append] at ht
  obtain ⟨h1, h2⟩ := chunk_inj u hu hu2 ht
  exact ⟨h1, ⟨t, h2⟩⟩

theorem splitSlash_chunk : ∀ (u : List Char), '/' ∉ u →
    ∀ v, splitSlash (u ++ '/' :: v) = u :: splitSlash v
  | [], _, v => by simp [splitSlash]
  | c :: u, hu, v => by
    have hc : ¬ c = '/' := fun e => hu (by rw [e]; exact List.mem_cons_self _ _)
    have ih := splitSlash_chunk u (fun hm => hu (List.mem_cons_of_mem _ hm)) v
    simp [splitSlash, hc, ih]

theorem splitSlash_noSlash : ∀ (u : List Char), '/' ∉ u → splitSlash u = [u]
  | [], _ => rfl
  | c :: u, hu => by
    have hc : ¬ c = '/' := fun e => hu (by rw [e]; exact List.mem_cons_self _ _)
    have ih := splitSlash_noSlash u (fun hm => hu (List.mem_cons_of_mem _ hm))
    simp [splitSlash, hc, ih]

theorem mk_data (s : String) : String.mk s.data = s := rfl

/-- Forward keys of safe components are uniquely parsed. -/
theorem fwdKey_inj {c o a c2 o2 a2 : String} (hc : SafeId c) (hc2 : SafeId c2)
    (ho : SafeId o) (ho2 : SafeId o2) (h : fwdKey c o a = fwdKey c2 o2 a2) :
    c = c2 ∧ o = o2 ∧ a = a2 := by
  have hd : c.data ++ '/' :: ("onlooker".data ++ '/' ::
        (o.data ++ '/' :: ("app".data ++ '/' :: a.data)))
      = c2.data ++ '/' :: ("onlooker".data ++ '/' ::
        (o2.data ++ '/' :: ("app".data ++ '/' :: a2.data))) := by
    simpa [fwdKey, String.data_append] using congrArg String.data h
  obtain ⟨e1, h2⟩ := chunk_inj c.data hc hc2 hd
  obtain ⟨-, h3⟩ := chunk_inj "onlooker".data (by decide) (by decide) h2
  obtain ⟨e2, h4⟩ := chunk_inj o.data ho ho2 h3
  obtain ⟨-, h5⟩ := chunk_inj "app".data (by decide) (by decide) h4
  exact ⟨String.ext e1, String.ext e2, String.ext h5⟩

/-- Reverse keys of safe components are uniquely parsed. -/
theorem revKey_inj {c o a c2 o2 a2 : String} (hc : SafeId c) (hc2 : SafeId c2)
    (ho : SafeId o) (ho2 : SafeId o2) (h : revKey c o a = revKey c2 o2 a2) :
    c = c2 ∧ o = o2 ∧ a = a2 := by
  have hd : o.data ++ '/' :: ("creator".data ++ '/' ::
        (c.data ++ '/' :: ("app".data ++ '/' :: a.data)))
      = o2.data ++ '/' :: ("creator".data ++ '/' ::
        (c2.data ++ '/' :: ("app".data ++ '/' :: a2.data))) := by
    simpa [revKey, String.data_append] using congrArg String.data h
  obtain ⟨e1, h2⟩ := chunk_inj o.data ho ho2 hd
  obtain ⟨-, h3⟩ := chunk_inj "creator".data (by decide) (by decide) h2
  obtain ⟨e2, h4⟩ := chunk_inj c.data hc hc2 h3
  obtain ⟨-, h5⟩ := chunk_inj "app".data (by decide) (by decide) h4
  exact ⟨String.ext e2, String.ext e1, String.ext h5⟩

/-- A forward key is never equal to a reverse key: the second path segment
is `creator` on one side and `onlooker` on the other. -/
theorem fwdKey_ne_revKey (c o a c2 o2 a2 : String) : fwdKey c o a ≠ revKey c2 o2 a2 := by
  intro h
  have hd := congrArg String.data h
  simp [fwdKey, revKey, String.data_append] at hd

/-- `mirrorKey` always produces a reverse-shaped key. -/
theorem mirrorKey_eq (k : String) :
    mirrorKey k =
      revKey (jsIdx (jsSplit k) 2) (jsIdx (jsSplit k) 4) (jsIdx (jsSplit k) 6) := rfl

theorem mirrorKey_ne_fwdKey (k c o a : String) : mirrorKey k ≠ fwdKey c o a := by
  rw [mirrorKey_eq]
  exact fun h => fwdKey_ne_revKey c o a _ _ _ h.symm

/-! ### Normal forms of the key encodings -/

theorem onlPre_data (c o : String) : (onlPre c o).data =
    "ro".data ++ '/' :: ("creator".data ++ '/' :: (c.data ++ '/' ::
      ("onlooker".data ++ '/' :: (o.data ++ ['/'])))) := by
  simp [onlPre, String.data_append]

theorem crePre_data (c : String) : (crePre c).data =
    "ro".data ++ '/' :: ("creator".data ++ '/' :: (c.data ++ ['/'])) := by
  simp [crePre, String.data_append]

theorem onlSidePre_data (o : String) : (onlSidePre o).data =
    "ro".data ++ '/' :: ("onlooker".data ++ '/' :: (o.data ++ ['/'])) := by
  simp [onlSidePre, String.data_append]

theorem fwdKey_data (c o a : String) : (fwdKey c o a).data =
    "ro".data ++ '/' :: ("creator".data ++ '/' :: (c.data ++ '/' ::
      ("onlooker".data ++ '/' :: (o.data ++ '/' ::
        ("app".data ++ '/' :: a.data))))) := by
  simp [fwdKey, String.data_append]

theorem revKey_data (c o a : String) : (revKey c o a).data =
    "ro".data ++ '/' :: ("onlooker".data ++ '/' :: (o.data ++ '/' ::
      ("creator".data ++ '/' :: (c.data ++ '/' ::
        ("app".data ++ '/' :: a.data))))) := by
  simp [revKey, String.data_append]

theorem fwdKey_decomp_onl (c o a : String) :
    fwdKey c o a = onlPre c o ++ ("app/" ++ a) := by
  apply String.ext
  simp [fwdKey, onlPre, String.data_append]

theorem fwdKey_decomp_cre (c o a : String) :
    fwdKey c o a = crePre c ++ ("onlooker/" ++ o ++ "/app/" ++ a) := by
  apply String.ext
  simp [fwdKey, crePre, String.data_append]

theorem revKey_decomp (c o a : String) :
    revKey c o a = onlSidePre o ++ ("creator/" ++ c ++ "/app/" ++ a) := by
  apply String.ext
  simp [revKey, onlSidePre, String.data_append]

/-! ### Range and prefix facts about scans -/

theorem strLt_append_ge (g s : String) : strLt (g ++ s) g = false := by
  simpa [strLt, String.data_append] using lexLt_append_self g.data s.data

theorem strLt_append_hi {g s : String} (h : Char) (t : List Char)
    (hs : s.data = h :: t) (hh : chLt h '￰' = true) :
    strLt (g ++ s) (g ++ "￰") = true := by
  have e2 : (g ++ "￰").data = g.data ++ ['￰'] := by simp [String.data_append]
  have e1 : (g ++ s).data = g.data ++ (h :: t) := by simp [String.data_append, hs]
  rw [strLt, e1, e2, lexLt_append_left]
  exact lexLt_cons_lt hh t []

theorem pre_of_scanRange {g k : String} (h1 : strLt k g = false)
    (h2 : strLt k (g ++ "￰") = true) : g.data <+: k.data := by
  apply isPre_of_range h1
  have e : (g ++ "￰").data = g.data ++ ['￰'] := by simp [String.data_append]
  rw [← e]
  exact h2

theorem mem_scanKeys {st : Store} {g m k : String} :
    k ∈ st.scanKeys g m ↔
      (∃ v, (k, v) ∈ st) ∧ strLt k g = false ∧ strLt k m = true := by
  simp only [Store.scanKeys, List.mem_filter, List.mem_map]
  constructor
  · rintro ⟨⟨p, hp, rfl⟩, hcond⟩
    have hc : strLt p.1 g = false ∧ strLt p.1 m = true := by simpa using hcond
    exact ⟨⟨p.2, by simpa using hp⟩, hc⟩
  · rintro ⟨⟨v, hv⟩, hc1, hc2⟩
    exact ⟨⟨(k, v), hv, rfl⟩, by simp [hc1, hc2]⟩

theorem pre_onlPre_fwdKey {c o c2 o2 : String} (hc : SafeId c) (hc2 : SafeId c2)
    (ho : SafeId o) (ho2 : SafeId o2) (a2 : String) :
    (onlPre c o).data <+: (fwdKey c2 o2 a2).data ↔ (c = c2 ∧ o = o2) := by
  constructor
  · intro h
    rw [onlPre_data, fwdKey_data] at h
    obtain ⟨-, h⟩ := chunk_pre (by decide) (by decide) h
    obtain ⟨-, h⟩ := chunk_pre (by decide) (by decide) h
    obtain ⟨e1, h⟩ := chunk_pre hc hc2 h
    obtain ⟨-, h⟩ := chunk_pre (by decide) (by decide) h
    have h' : (o.data ++ '/' :: []) <+:
        (o2.data ++ '/' :: ("app".data ++ '/' :: a2.data)) := h
    obtain ⟨e2, -⟩ := chunk_pre ho ho2 h'
    exact ⟨String.ext e1, String.ext e2⟩
  · rintro ⟨rfl, rfl⟩
    rw [fwdKey_decomp_onl]
    exact ⟨("app/" ++ a2).data, by simp [String.data_append]⟩

theorem not_pre_onlPre_revKey (c o c2 o2 a2 : String) :
    ¬ (onlPre c o).data <+: (revKey c2 o2 a2).data := by
  intro h
  rw [onlPre_data, revKey_data] at h
  obtain ⟨-, h⟩ := chunk_pre (by decide) (by decide) h
  obtain ⟨e, -⟩ := chunk_pre (by decide) (by decide) h
  exact absurd e (by decide)

theorem pre_crePre_fwdKey {c c2 : String} (hc : SafeId c) (hc2 : SafeId c2)
    (o2 a2 : String) :
    (crePre c).data <+: (fwdKey c2 o2 a2).data ↔ c = c2 := by
  constructor
  · intro h
    rw [crePre_data, fwdKey_data] at h
    obtain ⟨-, h⟩ := chunk_pre (by decide) (by decide) h
    obtain ⟨-, h⟩ := chunk_pre (by decide) (by decide) h
    have h' : (c.data ++ '/' :: []) <+:
        (c2.data ++ '/' :: ("onlooker".data ++ '/' ::
          (o2.data ++ '/' :: ("app".data ++ '/' :: a2.data)))) := h
    obtain ⟨e, -⟩ := chunk_pre hc hc2 h'
    exact String.ext e
  · rintro rfl
    rw [fwdKey_decomp_cre]
    exact ⟨("onlooker/" ++ o2 ++ "/app/" ++ a2).data, by simp [String.data_append]⟩

theorem not_pre_crePre_revKey (c c2 o2 a2 : String) :
    ¬ (crePre c).data <+: (revKey c2 o2 a2).data := by
  intro h
  rw [crePre_data, revKey_data] at h
  obtain ⟨-, h⟩ := chunk_pre (by decide) (by decide) h
  obtain ⟨e, -⟩ := chunk_pre (by decide) (by decide) h
  exact absurd e (by decide)

theorem pre_onlSidePre_revKey {o o2 : String} (ho : SafeId o) (ho2 : SafeId o2)
    (c2 a2 : String) :
    (onlSidePre o).data <+: (revKey c2 o2 a2).data ↔ o = o2 := by
  constructor
  · intro h
    rw [onlSidePre_data, revKey_data] at h
    obtain ⟨-, h⟩ := chunk_pre (by decide) (by decide) h
    obtain ⟨-, h⟩ := chunk_pre (by decide) (by decide) h
    have h' : (o.data ++ '/' :: []) <+:
        (o2.data ++ '/' :: ("creator".data ++ '/' ::
          (c2.data ++ '/' :: ("app".data ++ '/' :: a2.data)))) := h
    obtain ⟨e, -⟩ := chunk_pre ho ho2 h'
    exact String.ext e
  · rintro rfl
    rw [revKey_decomp]
    exact ⟨("creator/" ++ c2 ++ "/app/" ++ a2).data, by simp [String.data_append]⟩

theorem not_pre_onlSidePre_fwdKey (o c2 o2 a2 : String) :
    ¬ (onlSidePre o).data <+: (fwdKey c2 o2 a2).data := by
  intro h
  rw [onlSidePre_data, fwdKey_data] at h
  obtain ⟨-, h⟩ := chunk_pre (by decide) (by decide) h
  obtain ⟨e, -⟩ := chunk_pre (by decide) (by decide) h
  exact absurd e (by decide)

/-! ### Parsing scanned keys -/

theorem jsSplit_fwdKey {c o a : String} (hc : SafeId c) (ho : SafeId o)
    (ha : SafeId a) :
    jsSplit (fwdKey c o a) = ["ro", "creator", c, "onlooker", o, "app", a] := by
  unfold jsSplit
  rw [fwdKey_data,
    splitSlash_chunk "ro".data (by decide),
    splitSlash_chunk "creator".data (by decide),
    splitSlash_chunk c.data hc,
    splitSlash_chunk "onlooker".data (by decide),
    splitSlash_chunk o.data ho,
    splitSlash_chunk "app".data (by decide),
    splitSlash_noSlash a.data ha]
  simp [mk_data]

theorem jsSplit_revKey {c o a : String} (hc : SafeId c) (ho : SafeId o)
    (ha : SafeId a) :
    jsSplit (revKey c o a) = ["ro", "onlooker", o, "creator", c, "app", a] := by
  unfold jsSplit
  rw [revKey_data,
    splitSlash_chunk "ro".data (by decide),
    splitSlash_chunk "onlooker".data (by decide),
    splitSlash_chunk o.data ho,
    splitSlash_chunk "creator".data (by decide),
    splitSlash_chunk c.data hc,
    splitSlash_chunk "app".data (by decide),
    splitSlash_noSlash a.data ha]
  simp [mk_data]

/-- Deleting a scanned forward key also deletes exactly its reverse key. -/
theorem mirror_of_fwdKey {c o a : String} (hc : SafeId c) (ho : SafeId o)
    (ha : SafeId a) : mirrorKey (fwdKey c o a) = revKey c o a := by
  rw [mirrorKey_eq, jsSplit_fwdKey hc ho ha]
  rfl

/-- Any key extending the `delOnlooker` scan prefix mirrors to a reverse key
of the same creator and onlooker, whatever its tail looks like. -/
theorem mirror_of_onlPre {A B k : String} (hA : SafeId A) (hB : SafeId B)
    (h : (onlPre A B).data <+: k.data) : ∃ w, mirrorKey k = revKey A B w := by
  obtain ⟨t, ht⟩ := h
  refine ⟨jsIdx (jsSplit k) 6, ?_⟩
  have e : k.data = "ro".data ++ '/' :: ("creator".data ++ '/' :: (A.data ++ '/' ::
      ("onlooker".data ++ '/' :: (B.data ++ '/' :: t)))) := by
    rw [← ht, onlPre_data]
    simp [List.append_assoc]
  have hsplit : jsSplit k =
      "ro" :: "creator" :: A :: "onlooker" :: B :: (splitSlash t).map String.mk := by
    unfold jsSplit
    rw [e,
      splitSlash_chunk "ro".data (by decide),
      splitSlash_chunk "creator".data (by decide),
      splitSlash_chunk A.data hA,
      splitSlash_chunk "onlooker".data (by decide),
      splitSlash_chunk B.data hB]
    simp [mk_data]
  rw [mirrorKey_eq, hsplit]
  rfl

theorem mem_applyBatch {st : Store} {ops : List BatchOp} {p : String × Value}
    (h : p ∈ applyBatch st ops) :
    p ∈ st ∨ ∃ k v, BatchOp.put k v ∈ ops ∧ p = (k, v) := by
  induction ops generalizing st with
  | nil => exact Or.inl h
  | cons op ops ih =>
    cases op with
    | put k v =>
      rw [applyBatch_put_cons] at h
      rcases ih h with h' | ⟨k', v', hmem, rfl⟩
      · rcases Store.mem_put h' with h'' | h''
        · exact Or.inr ⟨k, v, by simp, h''⟩
        · exact Or.inl h''
      · exact Or.inr ⟨k', v', by simp [hmem], rfl⟩
    | del k =>
      rw [applyBatch_del_cons] at h
      rcases ih h with h' | ⟨k', v', hmem, rfl⟩
      · exact Or.inl (Store.mem_del h')
      · exact Or.inr ⟨k', v', by simp [hmem], rfl⟩

theorem Store.del_of_absent {st : Store} {k : String} (h : st.get k = none) :
    st.del k = st := by
  induction st with
  | nil => rfl
  | cons p st ih =>
    rw [Store.get_cons] at h
    by_cases hp : (p.1 == k) = true
    · rw [if_pos hp] at h
      cases h
    · rw [if_neg hp] at h
      rw [Store.del, if_neg hp, ih h]

/-- Helper for C9: `getUserSafe` forces `apiTokens` to `none`. -/
theorem getUserSafe_none_tokens {st : Store} {k : String} {u : IUser}
    (h : getUserSafe st k = some u) : u.apiTokens = none := by
  unfold getUserSafe at h
  cases hg : getUser st k true with
  | none => rw [hg] at h; cases h
  | some u0 =>
    rw [hg] at h
    injection h with h
    rw [← h]

/-- Helper for C9: every user record `findOrCreateGithub` hands back has
`apiTokens` forced to `none`. -/
theorem findOrCreate_none_tokens {st : Store} {p : Profile} {al : Allowlist}
    {draws : List String} {st2 : Store} {u : IUser}
    (h : findOrCreateGithub st p al draws = (st2, some u)) : u.apiTokens = none := by
  simp only [findOrCreateGithub] at h
  split at h
  · exact absurd (congrArg Prod.snd h) (by simp)
  · split at h
    · rename_i existing hexist
      have hex : existing.apiTokens = none := by
        split at hexist
        · split at hexist
          · split at hexist
            · exact getUserSafe_none_tokens hexist
            · cases hexist
          · cases hexist
        · cases hexist
      have hu : existing = u := by simpa using congrArg Prod.snd h
      rw [← hu]
      exact hex
    · split at h
      · exact absurd (congrArg Prod.snd h) (by simp)
      · have h2 := congrArg Prod.snd h
        simp only [Prod.snd] at h2
        injection h2 with h2
        rw [← h2]

/-! ### The claims -/

/-- C10: each of the four Onlooker Index mutations returns `true` for every
store state and all arguments (absent store-level I/O failure, which the
model does not raise), so the boolean result never distinguishes whether a
link existed, was added, or was removed. -/
theorem C10_mutations_always_true :
    ∀ (st : Store) (c o a : String),
      (addOnlookerApp st c o a).2 = true ∧ (delOnlookerApp st c o a).2 = true ∧
      (delOnlooker st c o).2 = true ∧ (delOnlookers st c).2 = true :=
  fun _ _ _ _ => ⟨rfl, rfl, rfl, rfl⟩

/-- C3: after `addOnlookerApp(A,B,S)` then `delOnlookerApp(A,B,S)`,
`validOnlooker(A,B,S)` is false and neither the forward nor the reverse key
remains; moreover `delOnlookerApp` on a store without the link returns
`true` and leaves the store unchanged (revoke is idempotent). -/
theorem C3_grant_revoke :
    ∀ (st : Store) (A B S : String),
      (validOnlooker (delOnlookerApp (addOnlookerApp st A B S).1 A B S).1 A B S = false ∧
        ((delOnlookerApp (addOnlookerApp st A B S).1 A B S).1).get (fwdKey A B S) = none ∧
        ((delOnlookerApp (addOnlookerApp st A B S).1 A B S).1).get (revKey A B S) = none) ∧
      (∀ st2 : Store, st2.get (fwdKey A B S) = none → st2.get (revKey A B S) = none →
        delOnlookerApp st2 A B S = (st2, true)) := by
  intro st A B S
  have hner : fwdKey A B S ≠ revKey A B S := fwdKey_ne_revKey A B S A B S
  have hfwd : ((delOnlookerApp (addOnlookerApp st A B S).1 A B S).1).get (fwdKey A B S)
      = none := by
    show (((((st.put (fwdKey A B S) (.str "1")).put (revKey A B S)
      (.str "1")).del (fwdKey A B S)).del (revKey A B S))).get (fwdKey A B S) = none
    rw [Store.get_del_ne _ hner, Store.get_del_self]
  have hrev : ((delOnlookerApp (addOnlookerApp st A B S).1 A B S).1).get (revKey A B S)
      = none := by
    show (((((st.put (fwdKey A B S) (.str "1")).put (revKey A B S)
      (.str "1")).del (fwdKey A B S)).del (revKey A B S))).get (revKey A B S) = none
    rw [Store.get_del_self]
  refine ⟨⟨?_, hfwd, hrev⟩, ?_⟩
  · rw [validOnlooker, hfwd]
  · intro st2 h1 h2
    show ((st2.del (fwdKey A B S)).del (revKey A B S), true) = (st2, true)
    rw [Store.del_of_absent h1, Store.del_of_absent h2]

/-- Witness for C3's idempotence clause: revoking a link absent from the
empty store succeeds and leaves the store unchanged. -/
theorem C3_grant_revoke_witness : delOnlookerApp [] "a" "b" "s" = ([], true) :=
  (C3_grant_revoke [] "a" "b" "s").2 [] (by decide) (by decide)

/-- C2 as stated is false on the code: it quantifies over all accounts `A`,
`B` and all store states, but with `A = B` the two required results coincide
and cannot be `true` and `false` at once.  Concretely, after
`addOnlookerApp("u","u","s")` on the empty store, `validOnlooker("u","u","s")`
is `true`, where the claim demands `false` for the swapped direction. -/
theorem C2_counterexample :
    ¬ (∀ (st : Store) (A B S : String),
        validOnlooker (addOnlookerApp st A B S).1 A B S = true ∧
        validOnlooker (addOnlookerApp st A B S).1 B A S = false) := by
  intro h
  have h1 := (h [] "u" "u" "s").1
  have h2 := (h [] "u" "u" "s").2
  rw [h1] at h2
  cases h2

/-- C2 amended: for accounts `A ≠ B` that contain no `/` and any store in
which `validOnlooker(B,A,S)` does not already hold, immediately after
`addOnlookerApp(A,B,S)` the query `validOnlooker(A,B,S)` returns `true` and
`validOnlooker(B,A,S)` returns `false` — authorization is not symmetric. -/
theorem C2_grant_direction {st : Store} {A B S : String} (hA : SafeId A)
    (hB : SafeId B) (hAB : A ≠ B)
    (hpre : validOnlooker st B A S = false) :
    validOnlooker (addOnlookerApp st A B S).1 A B S = true ∧
    validOnlooker (addOnlookerApp st A B S).1 B A S = false := by
  have hner : revKey A B S ≠ fwdKey A B S :=
    fun e => fwdKey_ne_revKey A B S A B S e.symm
  have hfwd : ((addOnlookerApp st A B S).1).get (fwdKey A B S) = some (.str "1") := by
    show (((st.put (fwdKey A B S) (.str "1")).put (revKey A B S)
      (.str "1"))).get (fwdKey A B S) = some (.str "1")
    rw [Store.get_put_ne _ hner, Store.get_put_self]
  constructor
  · rw [validOnlooker, hfwd]
    rfl
  · have hne1 : revKey A B S ≠ fwdKey B A S :=
      fun e => fwdKey_ne_revKey B A S A B S e.symm
    have hne2 : fwdKey A B S ≠ fwdKey B A S := by
      intro e
      exact hAB (fwdKey_inj hA hB hB hA e).1
    have hget : ((addOnlookerApp st A B S).1).get (fwdKey B A S)
        = st.get (fwdKey B A S) := by
      show (((st.put (fwdKey A B S) (.str "1")).put (revKey A B S)
        (.str "1"))).get (fwdKey B A S) = st.get (fwdKey B A S)
      rw [Store.get_put_ne _ hne1, Store.get_put_ne _ hne2]
    rw [validOnlooker, hget]
    rw [validOnlooker] at hpre
    exact hpre

/-- Witness for the amended C2 at `A = "a"`, `B = "b"`, `S = "s"` on the
empty store. -/
theorem C2_grant_direction_witness :
    validOnlooker (addOnlookerApp [] "a" "b" "s").1 "a" "b" "s" = true ∧
    validOnlooker (addOnlookerApp [] "a" "b" "s").1 "b" "a" "s" = false :=
  C2_grant_direction (by decide) (by decide) (by decide) (by decide)

/-- C8: when the value stored under `K` is a string `K2`, `getUser` recurses
into `K2` exactly once — the overall result is the no-chase lookup
`getUserBase st K2` — and when the value under `K2` is itself a string (not
a decodable account record), the result is `none`: the indirection chain is
never followed further, so lookup terminates even on corrupted chains. -/
theorem C8_one_level_indirection :
    ∀ (st : Store) (K K2 : String), st.get K = some (.str K2) →
      getUser st K true = getUserBase st K2 ∧
      (∀ K3, st.get K2 = some (.str K3) → getUser st K true = none) := by
  intro st K K2 h
  constructor
  · rw [getUser, h]
    show (match getUserBase st K2 with
      | some u => some u
      | none => none) = getUserBase st K2
    cases getUserBase st K2 <;> rfl
  · intro K3 h3
    rw [getUser, h]
    show (match getUserBase st K2 with
      | some u => some u
      | none => none) = none
    rw [getUserBase, h3]
    rfl

/-- Witness for C8 on a two-link corrupted chain: the lookup stops after one
indirection and returns `none`. -/
theorem C8_witness :
    getUser [("k", Value.str "k2"), ("k2", Value.str "k3")] "k" true = none :=
  (C8_one_level_indirection [("k", Value.str "k2"), ("k2", Value.str "k3")]
    "k" "k2" (by decide)).2 "k3" (by decide)

/-- C9: a record returned by `getUserSafe` never carries `apiTokens` (the
field is `undefined`), and likewise every record `findOrCreateGithub` hands
to callers. -/
theorem C9_no_tokens_escape :
    (∀ (st : Store) (k : String) (u : IUser),
      getUserSafe st k = some u → u.apiTokens = none) ∧
    (∀ (st : Store) (p : Profile) (al : Allowlist) (draws : List String)
      (st2 : Store) (u : IUser),
      findOrCreateGithub st p al draws = (st2, some u) → u.apiTokens = none) :=
  ⟨fun _ _ _ h => getUserSafe_none_tokens h,
   fun _ _ _ _ _ _ h => findOrCreate_none_tokens h⟩

/-- Witness for C9 on a store holding one record with a real token list:
the record that comes back out carries no token list. -/
theorem C9_witness :
    getUserSafe [("g", Value.user ⟨"g", [⟨"token-t", "n"⟩], none⟩)] "g"
      = some ⟨"g", none, none⟩ ∧
    (IUser.mk "g" none none).apiTokens = none :=
  ⟨by decide,
   C9_no_tokens_escape.1 [("g", Value.user ⟨"g", [⟨"token-t", "n"⟩], none⟩)] "g"
     ⟨"g", none, none⟩ (by decide)⟩

/-- The partitioning loop of `deleteApiToken` leaves the list length
unchanged exactly when no entry matched. -/
theorem length_filter_not_eq_iff {α : Type} (l : List α) (p : α → Bool) :
    (l.filter (fun x => !p x)).length = l.length ↔ l.filter p = [] := by
  induction l with
  | nil => simp
  | cons a l ih =>
    by_cases hp : p a = true
    · have hle := List.length_filter_le (fun x => !p x) l
      simp only [List.filter_cons, hp, Bool.not_true, List.length_cons]
      rw [if_pos trivial, if_neg (by simp)]
      constructor
      · intro h
        omega
      · intro h
        exact absurd h (List.cons_ne_nil _ _)
    · simp [List.filter_cons, hp, ih]

/-- C7: `deleteApiToken(G, N)` returns `false` exactly when no account
resolves for `G`.  When an account resolves: if no entry's name equals `N`
(in particular when the list is empty) it returns `true` without touching
the store; otherwise it deletes each matching entry's token mapping and
writes the shrunk record in one atomic batch, returning `true`. -/
theorem C7_deleteApiToken :
    ∀ (st : Store) (G N : String),
      ((deleteApiToken st G N).2 = false ↔ getUser st G true = none) ∧
      (∀ u, getUser st G true = some u →
        (u.apiTokens.filter (fun e => e.name == N) = [] →
          deleteApiToken st G N = (st, true)) ∧
        (u.apiTokens.filter (fun e => e.name == N) ≠ [] →
          deleteApiToken st G N =
            (applyBatch st
              ((u.apiTokens.filter (fun e => e.name == N)).map
                  (fun o => BatchOp.del o.token) ++
                [.put G (.user { u with
                  apiTokens := (u.apiTokens.filter (fun o => !(o.name == N))) })]),
              true))) := by
  intro st G N
  cases hg : getUser st G true with
  | none =>
    refine ⟨?_, ?_⟩
    · rw [deleteApiToken, hg]
      simp
    · intro u hu
      cases hu
  | some u =>
    constructor
    · rw [deleteApiToken, hg]
      by_cases hlen : (u.apiTokens.length == 0) = true
      · simp [hlen]
      · simp only [hlen, if_false, Bool.false_eq_true]
        by_cases hmatch :
            ((u.apiTokens.filter (fun o => !(o.name == N))).length ==
              u.apiTokens.length) = true
        · simp [hmatch]
        · simp [hmatch]
    · intro u2 hu2
      injection hu2 with hu2
      subst hu2
      constructor
      · intro hnone
        have heq : ((u.apiTokens.filter (fun o => !(o.name == N))).length ==
            u.apiTokens.length) = true := by
          simp only [beq_iff_eq]
          exact (length_filter_not_eq_iff u.apiTokens (fun e => e.name == N)).mpr hnone
        simp only [deleteApiToken, hg]
        by_cases hlen : (u.apiTokens.length == 0) = true
        · rw [if_pos hlen]
        · rw [if_neg hlen, if_pos heq]
      · intro hsome
        have hlen : (u.apiTokens.length == 0) = false := by
          rw [beq_eq_false_iff_ne]
          intro e
          rw [List.length_eq_zero] at e
          rw [e] at hsome
          simp at hsome
        have heq : ((u.apiTokens.filter (fun o => !(o.name == N))).length ==
            u.apiTokens.length) = false := by
          rw [beq_eq_false_iff_ne]
          exact fun e =>
            hsome ((length_filter_not_eq_iff u.apiTokens (fun e => e.name == N)).mp e)
        simp only [deleteApiToken, hg]
        rw [if_neg (by simp [hlen]), if_neg (by simp [heq])]

/-- Witness for C7: an account with one token named `n`, asked to delete
name `x` which matches nothing, succeeds and leaves the store unchanged. -/
theorem C7_deleteApiToken_witness :
    deleteApiToken
      [("g", Value.user ⟨"g", [⟨"token-t", "n"⟩], none⟩), ("token-t", Value.str "g")]
      "g" "x"
      = ([("g", Value.user ⟨"g", [⟨"token-t", "n"⟩], none⟩),
          ("token-t", Value.str "g")], true) :=
  ((C7_deleteApiToken
      [("g", Value.user ⟨"g", [⟨"token-t", "n"⟩], none⟩), ("token-t", Value.str "g")]
      "g" "x").2
    ⟨"g", [⟨"token-t", "n"⟩], none⟩ (by decide)).1 (by decide)

/-! ### Totality and asymmetry of the key order, and key comparisons -/

theorem chLt_or_of_ne {a b : Char} (h : a ≠ b) : chLt a b = true ∨ chLt b a = true := by
  rcases h.lt_or_lt with h1 | h1
  · exact Or.inl (by simpa [chLt] using h1)
  · exact Or.inr (by simpa [chLt] using h1)

theorem lexLt_asymm : ∀ {x y : List Char}, lexLt x y = true → lexLt y x = false
  | [], [], h => nomatch h
  | [], _ :: _, _ => lexLt_nil_right _
  | _ :: _, [], h => nomatch h
  | a :: as, b :: bs, h => by
    rw [lexLt_cons_cons] at h
    rw [lexLt_cons_cons]
    rcases (by simpa using h : chLt a b = true ∨ (a = b ∧ lexLt as bs = true)) with
      h1 | ⟨rfl, hlt⟩
    · have hba : chLt b a = false := chLt_asymm h1
      have hne : (b == a) = false := by
        rw [beq_eq_false_iff_ne]
        rintro rfl
        rw [chLt_irrefl] at h1
        cases h1
      rw [hba, hne]
      rfl
    · rw [chLt_irrefl, lexLt_asymm hlt]
      simp

theorem lexLt_total : ∀ {x y : List Char}, x ≠ y → lexLt x y = true ∨ lexLt y x = true
  | [], [], h => absurd rfl h
  | [], _ :: _, _ => Or.inl rfl
  | _ :: _, [], _ => Or.inr rfl
  | a :: as, b :: bs, h => by
    by_cases hab : a = b
    · subst hab
      have hne : as ≠ bs := fun e => h (by rw [e])
      rcases lexLt_total hne with h1 | h1
      · exact Or.inl (by rw [lexLt_cons_cons]; simp [h1])
      · exact Or.inr (by rw [lexLt_cons_cons]; simp [h1])
    · rcases chLt_or_of_ne hab with h1 | h1
      · exact Or.inl (lexLt_cons_lt h1 _ _)
      · exact Or.inr (lexLt_cons_lt h1 _ _)

theorem strLt_asymm {x y : String} (h : strLt x y = true) : strLt y x = false :=
  lexLt_asymm h

theorem strLt_total {x y : String} (h : x ≠ y) :
    strLt x y = true ∨ strLt y x = true :=
  lexLt_total (fun e => h (String.ext e))

/-- Every forward key sorts before every reverse key (`creator` < `onlooker`
at the fourth character). -/
theorem strLt_fwd_rev (c o a c2 o2 a2 : String) :
    strLt (fwdKey c o a) (revKey c2 o2 a2) = true := by
  rw [strLt]
  simp [fwdKey, revKey, String.data_append, lexLt_cons_cons, chLt]

theorem strLt_rev_fwd (c o a c2 o2 a2 : String) :
    strLt (revKey c o a) (fwdKey c2 o2 a2) = false := by
  rw [strLt]
  simp [fwdKey, revKey, String.data_append, lexLt_cons_cons, chLt]

/-- Forward keys sharing creator and onlooker sort by app name. -/
theorem strLt_fwd_fwd (c o a a2 : String) :
    strLt (fwdKey c o a) (fwdKey c o a2) = strLt a a2 := by
  have e : ∀ x : String, (fwdKey c o x).data =
      ("ro/creator/" ++ c ++ "/onlooker/" ++ o ++ "/app/").data ++ x.data := by
    intro x
    simp [fwdKey, String.data_append]
  rw [strLt, e, e, lexLt_append_left]
  rfl

theorem strLt_rev_rev (c o a a2 : String) :
    strLt (revKey c o a) (revKey c o a2) = strLt a a2 := by
  have e : ∀ x : String, (revKey c o x).data =
      ("ro/onlooker/" ++ o ++ "/creator/" ++ c ++ "/app/").data ++ x.data := by
    intro x
    simp [revKey, String.data_append]
  rw [strLt, e, e, lexLt_append_left]
  rfl

/-! ### Which keys fall inside which scan range -/

theorem fwd_onlRange (c o a : String) :
    (!strLt (fwdKey c o a) (onlPre c o) &&
      strLt (fwdKey c o a) (onlPre c o ++ "￰")) = true := by
  have h1 : strLt (fwdKey c o a) (onlPre c o) = false := by
    rw [fwdKey_decomp_onl]
    exact strLt_append_ge _ _
  have h2 : strLt (fwdKey c o a) (onlPre c o ++ "￰") = true := by
    rw [fwdKey_decomp_onl]
    exact strLt_append_hi 'a' ('p' :: 'p' :: '/' :: a.data)
      (by simp [String.data_append]) (by decide)
  rw [h1, h2]
  rfl

theorem fwd_creRange (c o a : String) :
    (!strLt (fwdKey c o a) (crePre c) &&
      strLt (fwdKey c o a) (crePre c ++ "￰")) = true := by
  have h1 : strLt (fwdKey c o a) (crePre c) = false := by
    rw [fwdKey_decomp_cre]
    exact strLt_append_ge _ _
  have h2 : strLt (fwdKey c o a) (crePre c ++ "￰") = true := by
    rw [fwdKey_decomp_cre]
    exact strLt_append_hi 'o'
      ('n' :: 'l' :: 'o' :: 'o' :: 'k' :: 'e' :: 'r' :: '/' ::
        (o.data ++ '/' :: 'a' :: 'p' :: 'p' :: '/' :: a.data))
      (by simp [String.data_append]) (by decide)
  rw [h1, h2]
  rfl

theorem rev_onlSideRange (c o a : String) :
    (!strLt (revKey c o a) (onlSidePre o) &&
      strLt (revKey c o a) (onlSidePre o ++ "￰")) = true := by
  have h1 : strLt (revKey c o a) (onlSidePre o) = false := by
    rw [revKey_decomp]
    exact strLt_append_ge _ _
  have h2 : strLt (revKey c o a) (onlSidePre o ++ "￰") = true := by
    rw [revKey_decomp]
    exact strLt_append_hi 'c'
      ('r' :: 'e' :: 'a' :: 't' :: 'o' :: 'r' :: '/' ::
        (c.data ++ '/' :: 'a' :: 'p' :: 'p' :: '/' :: a.data))
      (by simp [String.data_append]) (by decide)
  rw [h1, h2]
  rfl

/-- Reverse keys fall outside every creator-side scan range. -/
theorem rev_creRange_false (c o a c2 : String) :
    (!strLt (revKey c o a) (crePre c2) &&
      strLt (revKey c o a) (crePre c2 ++ "￰")) = false := by
  have h2 : strLt (revKey c o a) (crePre c2 ++ "￰") = false := by
    rw [strLt]
    simp [revKey, crePre, String.data_append, lexLt_cons_cons, chLt]
  rw [h2, Bool.and_false]

/-- Forward keys fall outside every onlooker-side scan range. -/
theorem fwd_onlSideRange_false (c o a o2 : String) :
    (!strLt (fwdKey c o a) (onlSidePre o2) &&
      strLt (fwdKey c o a) (onlSidePre o2 ++ "￰")) = false := by
  have h1 : strLt (fwdKey c o a) (onlSidePre o2) = true := by
    rw [strLt]
    simp [fwdKey, onlSidePre, String.data_append, lexLt_cons_cons, chLt]
  rw [h1]
  rfl

/-! ### Unfolding ordered insertion -/

theorem put_nil (k : String) (v : Value) : Store.put [] k v = [(k, v)] := rfl

theorem put_cons_lt {k k2 : String} (h : strLt k k2 = true) (v v2 : Value)
    (st : Store) : Store.put ((k2, v2) :: st) k v = (k, v) :: (k2, v2) :: st := by
  rw [Store.put, if_pos h]

theorem put_cons_gt {k k2 : String} (h1 : strLt k k2 = false)
    (h2 : (k == k2) = false) (v v2 : Value) (st : Store) :
    Store.put ((k2, v2) :: st) k v = (k2, v2) :: Store.put st k v := by
  rw [Store.put, if_neg (by simp [h1]), if_neg (by simp [h2])]

theorem jsIdx_two (p0 p1 p2 p3 p4 p5 p6 : String) :
    jsIdx [p0, p1, p2, p3, p4, p5, p6] 2 = p2 := rfl

theorem jsIdx_four (p0 p1 p2 p3 p4 p5 p6 : String) :
    jsIdx [p0, p1, p2, p3, p4, p5, p6] 4 = p4 := rfl

theorem jsIdx_six (p0 p1 p2 p3 p4 p5 p6 : String) :
    jsIdx [p0, p1, p2, p3, p4, p5, p6] 6 = p6 := rfl


/-! ### Characterizing the scan-and-delete operations -/

theorem flatMap_del_eq (ks : List String) :
    ks.flatMap (fun k => [BatchOp.del k, BatchOp.del (mirrorKey k)]) =
      (ks.flatMap (fun k => [k, mirrorKey k])).map BatchOp.del := by
  induction ks with
  | nil => rfl
  | cons a ks ih => simp [ih]

/-- What `delOnlooker` leaves under each key: everything scanned, and every
mirror of a scanned key, is gone; all else is untouched. -/
theorem delOnlooker_get (st : Store) (A B K : String) :
    (delOnlooker st A B).1.get K =
      if ∃ k ∈ st.scanKeys (onlPre A B) (onlPre A B ++ "￰"), K = k ∨ K = mirrorKey k
      then none else st.get K := by
  show (applyBatch st ((st.scanKeys (onlPre A B) (onlPre A B ++ "￰")).flatMap
      (fun k => [BatchOp.del k, BatchOp.del (mirrorKey k)]))).get K = _
  rw [flatMap_del_eq, get_applyBatch_dels]
  have hiff : (K ∈ (st.scanKeys (onlPre A B) (onlPre A B ++ "￰")).flatMap
      (fun k => [k, mirrorKey k])) ↔
      (∃ k ∈ st.scanKeys (onlPre A B) (onlPre A B ++ "￰"),
        K = k ∨ K = mirrorKey k) := by
    simp [List.mem_flatMap]
  rw [if_congr hiff rfl rfl]

/-- The same for `delOnlookers` over the wider prefix. -/
theorem delOnlookers_get (st : Store) (A K : String) :
    (delOnlookers st A).1.get K =
      if ∃ k ∈ st.scanKeys (crePre A) (crePre A ++ "￰"), K = k ∨ K = mirrorKey k
      then none else st.get K := by
  show (applyBatch st ((st.scanKeys (crePre A) (crePre A ++ "￰")).flatMap
      (fun k => [BatchOp.del k, BatchOp.del (mirrorKey k)]))).get K = _
  rw [flatMap_del_eq, get_applyBatch_dels]
  have hiff : (K ∈ (st.scanKeys (crePre A) (crePre A ++ "￰")).flatMap
      (fun k => [k, mirrorKey k])) ↔
      (∃ k ∈ st.scanKeys (crePre A) (crePre A ++ "￰"),
        K = k ∨ K = mirrorKey k) := by
    simp [List.mem_flatMap]
  rw [if_congr hiff rfl rfl]

/-- A present forward key is found by the `delOnlooker` scan. -/
theorem fwd_mem_scan {st : Store} {A B s : String}
    (h : (st.get (fwdKey A B s)).isSome) :
    fwdKey A B s ∈ st.scanKeys (onlPre A B) (onlPre A B ++ "￰") := by
  obtain ⟨v, hv⟩ := Store.get_isSome_iff.mp h
  obtain ⟨h1, h2⟩ : strLt (fwdKey A B s) (onlPre A B) = false ∧
      strLt (fwdKey A B s) (onlPre A B ++ "￰") = true := by
    simpa using fwd_onlRange A B s
  exact mem_scanKeys.mpr ⟨⟨v, hv⟩, h1, h2⟩

/-- A present forward key is found by the `delOnlookers` scan. -/
theorem fwd_mem_creScan {st : Store} {A B s : String}
    (h : (st.get (fwdKey A B s)).isSome) :
    fwdKey A B s ∈ st.scanKeys (crePre A) (crePre A ++ "￰") := by
  obtain ⟨v, hv⟩ := Store.get_isSome_iff.mp h
  obtain ⟨h1, h2⟩ : strLt (fwdKey A B s) (crePre A) = false ∧
      strLt (fwdKey A B s) (crePre A ++ "￰") = true := by
    simpa using fwd_creRange A B s
  exact mem_scanKeys.mpr ⟨⟨v, hv⟩, h1, h2⟩

/-- Everything the `delOnlooker` scan yields extends its prefix. -/
theorem scan_pre_onl {st : Store} {A B k : String}
    (h : k ∈ st.scanKeys (onlPre A B) (onlPre A B ++ "￰")) :
    (onlPre A B).data <+: k.data := by
  obtain ⟨-, h1, h2⟩ := mem_scanKeys.mp h
  exact pre_of_scanRange h1 h2

/-- Everything the `delOnlookers` scan yields extends its prefix. -/
theorem scan_pre_cre {st : Store} {A k : String}
    (h : k ∈ st.scanKeys (crePre A) (crePre A ++ "￰")) :
    (crePre A).data <+: k.data := by
  obtain ⟨-, h1, h2⟩ := mem_scanKeys.mp h
  exact pre_of_scanRange h1 h2

/-- C4: `delOnlooker(A, B)` removes every forward key of the pair `(A, B)`
and, for each of the three granted apps, the reverse key as well, while
every link from `A` to a different onlooker `C` and every link from a
different creator `D` to `B` is left with both its keys unchanged. -/
theorem C4_revokeOnlooker_frame {st : Store} {A B C D s1 s2 s3 : String}
    (hA : SafeId A) (hB : SafeId B) (hC : SafeId C) (hD : SafeId D)
    (hs1 : SafeId s1) (hs2 : SafeId s2) (hs3 : SafeId s3)
    (hBC : B ≠ C) (hAD : A ≠ D)
    (hp1 : (st.get (fwdKey A B s1)).isSome)
    (hp2 : (st.get (fwdKey A B s2)).isSome)
    (hp3 : (st.get (fwdKey A B s3)).isSome) :
    (∀ s, (delOnlooker st A B).1.get (fwdKey A B s) = none) ∧
    ((delOnlooker st A B).1.get (revKey A B s1) = none ∧
     (delOnlooker st A B).1.get (revKey A B s2) = none ∧
     (delOnlooker st A B).1.get (revKey A B s3) = none) ∧
    (∀ t2, SafeId t2 →
      (delOnlooker st A B).1.get (fwdKey A C t2) = st.get (fwdKey A C t2) ∧
      (delOnlooker st A B).1.get (revKey A C t2) = st.get (revKey A C t2)) ∧
    (∀ t2, SafeId t2 →
      (delOnlooker st A B).1.get (fwdKey D B t2) = st.get (fwdKey D B t2) ∧
      (delOnlooker st A B).1.get (revKey D B t2) = st.get (revKey D B t2)) := by
  refine ⟨?_, ⟨?_, ?_, ?_⟩, ?_, ?_⟩
  · intro s
    rw [delOnlooker_get]
    by_cases hc : ∃ k ∈ st.scanKeys (onlPre A B) (onlPre A B ++ "￰"),
        fwdKey A B s = k ∨ fwdKey A B s = mirrorKey k
    · rw [if_pos hc]
    · rw [if_neg hc]
      cases hget : st.get (fwdKey A B s) with
      | none => rfl
      | some v =>
        exact absurd ⟨fwdKey A B s, fwd_mem_scan (by rw [hget]; rfl), Or.inl rfl⟩ hc
  · rw [delOnlooker_get, if_pos ⟨fwdKey A B s1, fwd_mem_scan hp1,
      Or.inr (mirror_of_fwdKey hA hB hs1).symm⟩]
  · rw [delOnlooker_get, if_pos ⟨fwdKey A B s2, fwd_mem_scan hp2,
      Or.inr (mirror_of_fwdKey hA hB hs2).symm⟩]
  · rw [delOnlooker_get, if_pos ⟨fwdKey A B s3, fwd_mem_scan hp3,
      Or.inr (mirror_of_fwdKey hA hB hs3).symm⟩]
  · intro t2 ht2
    constructor
    · rw [delOnlooker_get, if_neg ?_]
      rintro ⟨k, hk, rfl | hm⟩
      · exact hBC ((pre_onlPre_fwdKey hA hA hB hC t2).mp (scan_pre_onl hk)).2
      · exact mirrorKey_ne_fwdKey k A C t2 hm.symm
    · rw [delOnlooker_get, if_neg ?_]
      rintro ⟨k, hk, rfl | hm⟩
      · exact not_pre_onlPre_revKey A B A C t2 (scan_pre_onl hk)
      · obtain ⟨w, hw⟩ := mirror_of_onlPre hA hB (scan_pre_onl hk)
        rw [hw] at hm
        exact hBC ((revKey_inj hA hA hC hB hm).2.1).symm
  · intro t2 ht2
    constructor
    · rw [delOnlooker_get, if_neg ?_]
      rintro ⟨k, hk, rfl | hm⟩
      · exact hAD ((pre_onlPre_fwdKey hA hD hB hB t2).mp (scan_pre_onl hk)).1
      · exact mirrorKey_ne_fwdKey k D B t2 hm.symm
    · rw [delOnlooker_get, if_neg ?_]
      rintro ⟨k, hk, rfl | hm⟩
      · exact not_pre_onlPre_revKey A B D B t2 (scan_pre_onl hk)
      · obtain ⟨w, hw⟩ := mirror_of_onlPre hA hB (scan_pre_onl hk)
        rw [hw] at hm
        exact hAD ((revKey_inj hD hA hB hB hm).1).symm

/-- Witness for C4 on a store built by five grants. -/
theorem C4_revokeOnlooker_frame_witness :
    (∀ s, (delOnlooker (addOnlookerApp (addOnlookerApp (addOnlookerApp
        (addOnlookerApp (addOnlookerApp [] "a" "b" "s1").1 "a" "b" "s2").1
        "a" "b" "s3").1 "a" "c" "t").1 "d" "b" "u").1 "a" "b").1.get
        (fwdKey "a" "b" s) = none) ∧
    ((delOnlooker (addOnlookerApp (addOnlookerApp (addOnlookerApp
        (addOnlookerApp (addOnlookerApp [] "a" "b" "s1").1 "a" "b" "s2").1
        "a" "b" "s3").1 "a" "c" "t").1 "d" "b" "u").1 "a" "b").1.get
        (revKey "a" "b" "s1") = none ∧
     (delOnlooker (addOnlookerApp (addOnlookerApp (addOnlookerApp
        (addOnlookerApp (addOnlookerApp [] "a" "b" "s1").1 "a" "b" "s2").1
        "a" "b" "s3").1 "a" "c" "t").1 "d" "b" "u").1 "a" "b").1.get
        (revKey "a" "b" "s2") = none ∧
     (delOnlooker (addOnlookerApp (addOnlookerApp (addOnlookerApp
        (addOnlookerApp (addOnlookerApp [] "a" "b" "s1").1 "a" "b" "s2").1
        "a" "b" "s3").1 "a" "c" "t").1 "d" "b" "u").1 "a" "b").1.get
        (revKey "a" "b" "s3") = none) ∧
    (∀ t2, SafeId t2 →
      (delOnlooker (addOnlookerApp (addOnlookerApp (addOnlookerApp
        (addOnlookerApp (addOnlookerApp [] "a" "b" "s1").1 "a" "b" "s2").1
        "a" "b" "s3").1 "a" "c" "t").1 "d" "b" "u").1 "a" "b").1.get
        (fwdKey "a" "c" t2)
        = (addOnlookerApp (addOnlookerApp (addOnlookerApp
          (addOnlookerApp (addOnlookerApp [] "a" "b" "s1").1 "a" "b" "s2").1
          "a" "b" "s3").1 "a" "c" "t").1 "d" "b" "u").1.get (fwdKey "a" "c" t2) ∧
      (delOnlooker (addOnlookerApp (addOnlookerApp (addOnlookerApp
        (addOnlookerApp (addOnlookerApp [] "a" "b" "s1").1 "a" "b" "s2").1
        "a" "b" "s3").1 "a" "c" "t").1 "d" "b" "u").1 "a" "b").1.get
        (revKey "a" "c" t2)
        = (addOnlookerApp (addOnlookerApp (addOnlookerApp
          (addOnlookerApp (addOnlookerApp [] "a" "b" "s1").1 "a" "b" "s2").1
          "a" "b" "s3").1 "a" "c" "t").1 "d" "b" "u").1.get (revKey "a" "c" t2)) ∧
    (∀ t2, SafeId t2 →
      (delOnlooker (addOnlookerApp (addOnlookerApp (addOnlookerApp
        (addOnlookerApp (addOnlookerApp [] "a" "b" "s1").1 "a" "b" "s2").1
        "a" "b" "s3").1 "a" "c" "t").1 "d" "b" "u").1 "a" "b").1.get
        (fwdKey "d" "b" t2)
        = (addOnlookerApp (addOnlookerApp (addOnlookerApp
          (addOnlookerApp (addOnlookerApp [] "a" "b" "s1").1 "a" "b" "s2").1
          "a" "b" "s3").1 "a" "c" "t").1 "d" "b" "u").1.get (fwdKey "d" "b" t2) ∧
      (delOnlooker (addOnlookerApp (addOnlookerApp (addOnlookerApp
        (addOnlookerApp (addOnlookerApp [] "a" "b" "s1").1 "a" "b" "s2").1
        "a" "b" "s3").1 "a" "c" "t").1 "d" "b" "u").1 "a" "b").1.get
        (revKey "d" "b" t2)
        = (addOnlookerApp (addOnlookerApp (addOnlookerApp
          (addOnlookerApp (addOnlookerApp [] "a" "b" "s1").1 "a" "b" "s2").1
          "a" "b" "s3").1 "a" "c" "t").1 "d" "b" "u").1.get (revKey "d" "b" t2)) :=
  C4_revokeOnlooker_frame (by decide) (by decide) (by decide) (by decide)
    (by decide) (by decide) (by decide) (by decide) (by decide)
    (by decide) (by decide) (by decide)

/-! ### C1: the forward/reverse pairing invariant -/

/-- One Onlooker Index mutation, with its arguments. -/
inductive LinkOp where
  | add (creator onlooker app : String)
  | delApp (creator onlooker app : String)
  | delOne (creator onlooker : String)
  | delAll (creator : String)
deriving DecidableEq, Repr

def applyLinkOp (st : Store) : LinkOp → Store
  | .add c o a => (addOnlookerApp st c o a).1
  | .delApp c o a => (delOnlookerApp st c o a).1
  | .delOne c o => (delOnlooker st c o).1
  | .delAll c => (delOnlookers st c).1

def runLinkOps (st : Store) (ops : List LinkOp) : Store := ops.foldl applyLinkOp st

/-- All identifiers of a mutation lie in the safe (slash-free) alphabet, as
the spec assumes of everything reaching this component. -/
def SafeOp : LinkOp → Prop
  | .add c o a => SafeId c ∧ SafeId o ∧ SafeId a
  | .delApp c o a => SafeId c ∧ SafeId o ∧ SafeId a
  | .delOne c o => SafeId c ∧ SafeId o
  | .delAll c => SafeId c

/-- The pairing invariant of the Onlooker Index: for every safe triple, the
forward key is present exactly when the reverse key is. -/
def LinkPaired (st : Store) : Prop :=
  ∀ c o a, SafeId c → SafeId o → SafeId a →
    ((st.get (fwdKey c o a)).isSome ↔ (st.get (revKey c o a)).isSome)

theorem ro_pre_fwdKey (c o a : String) : "ro/".data <+: (fwdKey c o a).data :=
  ⟨("creator/" ++ c ++ "/onlooker/" ++ o ++ "/app/" ++ a).data,
   by simp [fwdKey, String.data_append]⟩

theorem ro_pre_revKey (c o a : String) : "ro/".data <+: (revKey c o a).data :=
  ⟨("onlooker/" ++ o ++ "/creator/" ++ c ++ "/app/" ++ a).data,
   by simp [revKey, String.data_append]⟩

theorem splitSlash_safe : ∀ (l : List Char), ∀ g ∈ splitSlash l, '/' ∉ g
  | [] => by
    intro g hg
    simp [splitSlash] at hg
    subst hg
    exact List.not_mem_nil _
  | c :: rest => by
    intro g hg
    by_cases hc : c = '/'
    · subst hc
      rw [show splitSlash ('/' :: rest) = [] :: splitSlash rest from by
        simp [splitSlash]] at hg
      rcases List.mem_cons.mp hg with rfl | hg2
      · exact List.not_mem_nil _
      · exact splitSlash_safe rest g hg2
    · cases hrec : splitSlash rest with
      | nil =>
        rw [show splitSlash (c :: rest) = [[c]] from by
          simp [splitSlash, hc, hrec]] at hg
        simp at hg
        subst hg
        intro hmem
        simp at hmem
        exact hc hmem.symm
      | cons g0 gs =>
        rw [show splitSlash (c :: rest) = (c :: g0) :: gs from by
          simp [splitSlash, hc, hrec]] at hg
        rcases List.mem_cons.mp hg with rfl | hg2
        · intro hmem
          rcases List.mem_cons.mp hmem with he | hm
          · exact hc he.symm
          · exact splitSlash_safe rest g0
              (by rw [hrec]; exact List.mem_cons_self _ _) hm
        · exact splitSlash_safe rest g
            (by rw [hrec]; exact List.mem_cons_of_mem _ hg2)

theorem getD_map_mk_safe (l : List (List Char)) (h : ∀ g ∈ l, '/' ∉ g) (n : Nat) :
    SafeId ((l.map String.mk).getD n "undefined") := by
  show SafeId (((l.map String.mk).get? n).getD "undefined")
  cases hg : (l.map String.mk).get? n with
  | none => decide
  | some s =>
    obtain ⟨g, hgl, rfl⟩ := List.mem_map.mp (List.get?_mem hg)
    exact h g hgl

/-- Any key extending the `delOnlookers` scan prefix mirrors to a reverse
key whose creator is the scanned creator and whose onlooker is slash-free. -/
theorem mirror_of_crePre {A k : String} (hA : SafeId A)
    (h : (crePre A).data <+: k.data) :
    ∃ x w, SafeId x ∧ mirrorKey k = revKey A x w := by
  obtain ⟨t, ht⟩ := h
  have e : k.data = "ro".data ++ '/' :: ("creator".data ++ '/' :: (A.data ++ '/' :: t)) := by
    rw [← ht, crePre_data]
    simp [List.append_assoc]
  have hsplit : jsSplit k = "ro" :: "creator" :: A :: (splitSlash t).map String.mk := by
    unfold jsSplit
    rw [e, splitSlash_chunk "ro".data (by decide),
      splitSlash_chunk "creator".data (by decide),
      splitSlash_chunk A.data hA]
    simp [mk_data]
  refine ⟨jsIdx (jsSplit k) 4, jsIdx (jsSplit k) 6, ?_, ?_⟩
  · rw [hsplit]
    show SafeId (((splitSlash t).map String.mk).getD 1 "undefined")
    exact getD_map_mk_safe _ (splitSlash_safe t) 1
  · rw [mirrorKey_eq, hsplit]
    rfl

theorem paired_add {st : Store} (hP : LinkPaired st) {c o a : String}
    (hc : SafeId c) (ho : SafeId o) (ha : SafeId a) :
    LinkPaired (addOnlookerApp st c o a).1 := by
  intro c2 o2 a2 hc2 ho2 ha2
  show ((((st.put (fwdKey c o a) (.str "1")).put (revKey c o a)
      (.str "1"))).get (fwdKey c2 o2 a2)).isSome ↔
    ((((st.put (fwdKey c o a) (.str "1")).put (revKey c o a)
      (.str "1"))).get (revKey c2 o2 a2)).isSome
  by_cases he : c2 = c ∧ o2 = o ∧ a2 = a
  · obtain ⟨rfl, rfl, rfl⟩ := he
    rw [Store.get_put_ne _ (fun e => fwdKey_ne_revKey c2 o2 a2 c2 o2 a2 e.symm) _,
      Store.get_put_self, Store.get_put_self]
  · have h1 : revKey c o a ≠ fwdKey c2 o2 a2 :=
      fun e => fwdKey_ne_revKey c2 o2 a2 c o a e.symm
    have h2 : fwdKey c o a ≠ fwdKey c2 o2 a2 := fun e => by
      obtain ⟨e1, e2, e3⟩ := fwdKey_inj hc hc2 ho ho2 e
      exact he ⟨e1.symm, e2.symm, e3.symm⟩
    have h3 : revKey c o a ≠ revKey c2 o2 a2 := fun e => by
      obtain ⟨e1, e2, e3⟩ := revKey_inj hc hc2 ho ho2 e
      exact he ⟨e1.symm, e2.symm, e3.symm⟩
    have h4 : fwdKey c o a ≠ revKey c2 o2 a2 := fwdKey_ne_revKey c o a c2 o2 a2
    rw [Store.get_put_ne _ h1, Store.get_put_ne _ h2,
      Store.get_put_ne _ h3, Store.get_put_ne _ h4]
    exact hP c2 o2 a2 hc2 ho2 ha2

theorem paired_delApp {st : Store} (hP : LinkPaired st) {c o a : String}
    (hc : SafeId c) (ho : SafeId o) (ha : SafeId a) :
    LinkPaired (delOnlookerApp st c o a).1 := by
  intro c2 o2 a2 hc2 ho2 ha2
  show ((((st.del (fwdKey c o a)).del (revKey c o a))).get (fwdKey c2 o2 a2)).isSome ↔
    ((((st.del (fwdKey c o a)).del (revKey c o a))).get (revKey c2 o2 a2)).isSome
  by_cases he : c2 = c ∧ o2 = o ∧ a2 = a
  · obtain ⟨rfl, rfl, rfl⟩ := he
    rw [Store.get_del_ne _ (fwdKey_ne_revKey c2 o2 a2 c2 o2 a2),
      Store.get_del_self, Store.get_del_self]
  · have h1 : fwdKey c2 o2 a2 ≠ revKey c o a := fwdKey_ne_revKey c2 o2 a2 c o a
    have h2 : fwdKey c2 o2 a2 ≠ fwdKey c o a := fun e => he (fwdKey_inj hc2 hc ho2 ho e)
    have h3 : revKey c2 o2 a2 ≠ revKey c o a := fun e => he (revKey_inj hc2 hc ho2 ho e)
    have h4 : revKey c2 o2 a2 ≠ fwdKey c o a :=
      fun e => fwdKey_ne_revKey c o a c2 o2 a2 e.symm
    rw [Store.get_del_ne _ h1, Store.get_del_ne _ h2,
      Store.get_del_ne _ h3, Store.get_del_ne _ h4]
    exact hP c2 o2 a2 hc2 ho2 ha2

theorem paired_delOne {st : Store} (hP : LinkPaired st) {c o : String}
    (hc : SafeId c) (ho : SafeId o) : LinkPaired (delOnlooker st c o).1 := by
  intro c2 o2 a2 hc2 ho2 ha2
  by_cases hco : c2 = c ∧ o2 = o
  · obtain ⟨rfl, rfl⟩ := hco
    have hfwd : (delOnlooker st c2 o2).1.get (fwdKey c2 o2 a2) = none := by
      rw [delOnlooker_get]
      by_cases hcnd : ∃ k ∈ st.scanKeys (onlPre c2 o2) (onlPre c2 o2 ++ "￰"),
          fwdKey c2 o2 a2 = k ∨ fwdKey c2 o2 a2 = mirrorKey k
      · rw [if_pos hcnd]
      · rw [if_neg hcnd]
        cases hget : st.get (fwdKey c2 o2 a2) with
        | none => rfl
        | some v =>
          exact absurd ⟨_, fwd_mem_scan (by rw [hget]; rfl), Or.inl rfl⟩ hcnd
    have hrev : (delOnlooker st c2 o2).1.get (revKey c2 o2 a2) = none := by
      rw [delOnlooker_get]
      by_cases hfs : (st.get (fwdKey c2 o2 a2)).isSome = true
      · rw [if_pos ⟨_, fwd_mem_scan hfs,
          Or.inr (mirror_of_fwdKey hc2 ho2 ha2).symm⟩]
      · have hrnone : st.get (revKey c2 o2 a2) = none := by
          cases hh : st.get (revKey c2 o2 a2) with
          | none => rfl
          | some v =>
            exact absurd ((hP c2 o2 a2 hc2 ho2 ha2).mpr (by rw [hh]; rfl)) hfs
        by_cases hcnd : ∃ k ∈ st.scanKeys (onlPre c2 o2) (onlPre c2 o2 ++ "￰"),
            revKey c2 o2 a2 = k ∨ revKey c2 o2 a2 = mirrorKey k
        · rw [if_pos hcnd]
        · rw [if_neg hcnd]
          exact hrnone
    rw [hfwd, hrev]
  · have hf : (delOnlooker st c o).1.get (fwdKey c2 o2 a2)
        = st.get (fwdKey c2 o2 a2) := by
      rw [delOnlooker_get, if_neg ?_]
      rintro ⟨k, hk, rfl | hm⟩
      · obtain ⟨e1, e2⟩ := (pre_onlPre_fwdKey hc hc2 ho ho2 a2).mp (scan_pre_onl hk)
        exact hco ⟨e1.symm, e2.symm⟩
      · exact mirrorKey_ne_fwdKey k c2 o2 a2 hm.symm
    have hr : (delOnlooker st c o).1.get (revKey c2 o2 a2)
        = st.get (revKey c2 o2 a2) := by
      rw [delOnlooker_get, if_neg ?_]
      rintro ⟨k, hk, rfl | hm⟩
      · exact not_pre_onlPre_revKey c o c2 o2 a2 (scan_pre_onl hk)
      · obtain ⟨w, hw⟩ := mirror_of_onlPre hc ho (scan_pre_onl hk)
        rw [hw] at hm
        obtain ⟨e1, e2, -⟩ := revKey_inj hc2 hc ho2 ho hm
        exact hco ⟨e1, e2⟩
    rw [hf, hr]
    exact hP c2 o2 a2 hc2 ho2 ha2

theorem paired_delAll {st : Store} (hP : LinkPaired st) {c : String}
    (hc : SafeId c) : LinkPaired (delOnlookers st c).1 := by
  intro c2 o2 a2 hc2 ho2 ha2
  by_cases hcc : c2 = c
  · subst hcc
    have hfwd : (delOnlookers st c2).1.get (fwdKey c2 o2 a2) = none := by
      rw [delOnlookers_get]
      by_cases hcnd : ∃ k ∈ st.scanKeys (crePre c2) (crePre c2 ++ "￰"),
          fwdKey c2 o2 a2 = k ∨ fwdKey c2 o2 a2 = mirrorKey k
      · rw [if_pos hcnd]
      · rw [if_neg hcnd]
        cases hget : st.get (fwdKey c2 o2 a2) with
        | none => rfl
        | some v =>
          exact absurd ⟨_, fwd_mem_creScan (by rw [hget]; rfl), Or.inl rfl⟩ hcnd
    have hrev : (delOnlookers st c2).1.get (revKey c2 o2 a2) = none := by
      rw [delOnlookers_get]
      by_cases hfs : (st.get (fwdKey c2 o2 a2)).isSome = true
      · rw [if_pos ⟨_, fwd_mem_creScan hfs,
          Or.inr (mirror_of_fwdKey hc2 ho2 ha2).symm⟩]
      · have hrnone : st.get (revKey c2 o2 a2) = none := by
          cases hh : st.get (revKey c2 o2 a2) with
          | none => rfl
          | some v =>
            exact absurd ((hP c2 o2 a2 hc2 ho2 ha2).mpr (by rw [hh]; rfl)) hfs
        by_cases hcnd : ∃ k ∈ st.scanKeys (crePre c2) (crePre c2 ++ "￰"),
            revKey c2 o2 a2 = k ∨ revKey c2 o2 a2 = mirrorKey k
        · rw [if_pos hcnd]
        · rw [if_neg hcnd]
          exact hrnone
    rw [hfwd, hrev]
  · have hf : (delOnlookers st c).1.get (fwdKey c2 o2 a2)
        = st.get (fwdKey c2 o2 a2) := by
      rw [delOnlookers_get, if_neg ?_]
      rintro ⟨k, hk, rfl | hm⟩
      · exact hcc ((pre_crePre_fwdKey hc hc2 o2 a2).mp (scan_pre_cre hk)).symm
      · exact mirrorKey_ne_fwdKey k c2 o2 a2 hm.symm
    have hr : (delOnlookers st c).1.get (revKey c2 o2 a2)
        = st.get (revKey c2 o2 a2) := by
      rw [delOnlookers_get, if_neg ?_]
      rintro ⟨k, hk, rfl | hm⟩
      · exact not_pre_crePre_revKey c c2 o2 a2 (scan_pre_cre hk)
      · obtain ⟨x, w, hx, hw⟩ := mirror_of_crePre hc (scan_pre_cre hk)
        rw [hw] at hm
        exact hcc (revKey_inj hc2 hc ho2 hx hm).1
    rw [hf, hr]
    exact hP c2 o2 a2 hc2 ho2 ha2

/-- C1: from any store with no `ro/`-prefixed entries, after every prefix of
any sequence of safe Onlooker Index mutations, and for every safe triple,
the forward key is present exactly when the reverse key is.  Each mutation
performs its writes and removals in one `applyBatch`, the model's atomic
batch. -/
theorem C1_link_pairing (st0 : Store)
    (h0 : ∀ k : String, ("ro/".data <+: k.data) → st0.get k = none)
    (ops : List LinkOp) (hops : ∀ op ∈ ops, SafeOp op) :
    ∀ i : Nat, LinkPaired (runLinkOps st0 (ops.take i)) := by
  have hinit : LinkPaired st0 := by
    intro c o a hc ho ha
    rw [h0 _ (ro_pre_fwdKey c o a), h0 _ (ro_pre_revKey c o a)]
  have hstep : ∀ (st : Store) (op : LinkOp), LinkPaired st → SafeOp op →
      LinkPaired (applyLinkOp st op) := by
    intro st op hP hop
    cases op with
    | add c o a => exact paired_add hP hop.1 hop.2.1 hop.2.2
    | delApp c o a => exact paired_delApp hP hop.1 hop.2.1 hop.2.2
    | delOne c o => exact paired_delOne hP hop.1 hop.2
    | delAll c => exact paired_delAll hP hop
  have hrun : ∀ (ops2 : List LinkOp) (st : Store), LinkPaired st →
      (∀ op ∈ ops2, SafeOp op) → LinkPaired (runLinkOps st ops2) := by
    intro ops2
    induction ops2 with
    | nil => intro st h _; exact h
    | cons op rest ih =>
      intro st h hsafe
      exact ih _ (hstep st op h (hsafe op (List.mem_cons_self _ _)))
        (fun o ho => hsafe o (List.mem_cons_of_mem _ ho))
  intro i
  exact hrun (ops.take i) st0 hinit
    (fun op hop => hops op (List.take_subset i ops hop))

/-- Witness for C1: a store holding one non-link entry, a grant, and a
cascading revoke. -/
theorem C1_link_pairing_witness :
    LinkPaired (runLinkOps [("x", Value.str "y")]
      ([LinkOp.add "a" "b" "s", LinkOp.delOne "a" "b"].take 2)) :=
  C1_link_pairing [("x", Value.str "y")]
    (by
      intro k hk
      by_cases he : ("x" : String) = k
      · subst he
        exact absurd hk (by decide)
      · rw [Store.get_cons, if_neg (by simpa using he)]
        rfl)
    [LinkOp.add "a" "b" "s", LinkOp.delOne "a" "b"]
    (by
      intro op hop
      rcases List.mem_cons.mp hop with rfl | hop2
      · exact ⟨by decide, by decide, by decide⟩
      · rcases List.mem_cons.mp hop2 with rfl | hop3
        · exact ⟨by decide, by decide⟩
        · exact absurd hop3 (List.not_mem_nil _))
    2

/-! ### C5: the two scans of `allOnlookerLinks` after two grants

The scan bounds of `allOnlookerLinks` extend `ro/`, so over a store with no
`ro/`-prefixed entries both scans are empty, and after two grants only the
freshly inserted link keys can be scanned.  The ordered insertion of
`Store.put` keeps the `ro/`-prefixed entries of such a store in ascending
key order among themselves, which fixes the order of the scanned keys. -/

/-- A key carrying the Onlooker Index namespace `ro/`. -/
abbrev roPre (k : String) : Prop := "ro/".data <+: k.data

theorem pre_trans {a b c : List Char} (h1 : a <+: b) (h2 : b <+: c) :
    a <+: c := by
  obtain ⟨t1, e1⟩ := h1
  obtain ⟨t2, e2⟩ := h2
  exact ⟨t1 ++ t2, by rw [← List.append_assoc, e1, e2]⟩

theorem ro_pre_crePre (c : String) : "ro/".data <+: (crePre c).data :=
  ⟨("creator/" ++ c ++ "/").data, by simp [crePre, String.data_append]⟩

theorem ro_pre_onlSidePre (o : String) : "ro/".data <+: (onlSidePre o).data :=
  ⟨("onlooker/" ++ o ++ "/").data, by simp [onlSidePre, String.data_append]⟩

theorem chLt_trans {a b c : Char} (h1 : chLt a b = true)
    (h2 : chLt b c = true) : chLt a c = true := by
  simp only [chLt, decide_eq_true_eq] at h1 h2 ⊢
  exact lt_trans h1 h2

theorem lexLt_trans : ∀ {x y z : List Char}, lexLt x y = true →
    lexLt y z = true → lexLt x z = true
  | _, y, [], _, h2 => by simp [lexLt_nil_right] at h2
  | [], _, _ :: _, _, _ => rfl
  | _ :: _, [], _ :: _, h1, _ => by simp [lexLt_nil_right] at h1
  | a :: xs, b :: ys, c :: zs, h1, h2 => by
    rw [lexLt_cons_cons] at h1 h2 ⊢
    rcases (by simpa using h1 : chLt a b = true ∨ (a = b ∧ lexLt xs ys = true)) with
      hab | ⟨rfl, hxy⟩
    · rcases (by simpa using h2 : chLt b c = true ∨ (b = c ∧ lexLt ys zs = true)) with
        hbc | ⟨rfl, -⟩
      · simp [chLt_trans hab hbc]
      · simp [hab]
    · rcases (by simpa using h2 : chLt a c = true ∨ (a = c ∧ lexLt ys zs = true)) with
        hac | ⟨rfl, hyz⟩
      · simp [hac]
      · simp [lexLt_trans hxy hyz]

theorem strLt_trans {x y z : String} (h1 : strLt x y = true)
    (h2 : strLt y z = true) : strLt x z = true :=
  lexLt_trans h1 h2

/-- Ordered insertion of a fresh key: `put` splits the store at the first
entry sorting strictly above the key. -/
theorem put_split {st : Store} {k : String} (hfresh : ∀ w, (k, w) ∉ st)
    (v : Value) :
    ∃ P Q, st = P ++ Q ∧ st.put k v = P ++ (k, v) :: Q ∧
      (∀ p ∈ P, strLt k p.1 = false) ∧
      (Q = [] ∨ ∃ q0 Q2, Q = q0 :: Q2 ∧ strLt k q0.1 = true) := by
  induction st with
  | nil => exact ⟨[], [], rfl, rfl, by simp, Or.inl rfl⟩
  | cons h t ih =>
    obtain ⟨kh, vh⟩ := h
    by_cases h1 : strLt k kh = true
    · exact ⟨[], (kh, vh) :: t, rfl, by rw [Store.put, if_pos h1]; rfl, by simp,
        Or.inr ⟨(kh, vh), t, rfl, h1⟩⟩
    · have h2 : (k == kh) = false := by
        rw [beq_eq_false_iff_ne]
        intro e
        exact hfresh vh (by rw [e]; exact List.mem_cons_self _ _)
      obtain ⟨P, Q, e1, e2, e3, e4⟩ :=
        ih (fun w hw => hfresh w (List.mem_cons_of_mem _ hw))
      refine ⟨(kh, vh) :: P, Q, by rw [List.cons_append, ← e1], ?_, ?_, e4⟩
      · rw [Store.put, if_neg h1, if_neg (by simp [h2]), e2]
        rfl
      · intro p hp
        rcases List.mem_cons.mp hp with rfl | hp2
        · simpa using h1
        · exact e3 p hp2

/-- Every `ro/`-prefixed entry sorts at or above all entries preceding it in
the store list; stores with no `ro/` entries satisfy this vacuously, and
`Store.put` preserves it. -/
abbrev ScanOrd (st : Store) : Prop :=
  st.Pairwise (fun a b => roPre b.1 → strLt b.1 a.1 = false)

theorem scanOrd_of_no_ro {st : Store} (h : ∀ p ∈ st, ¬ roPre p.1) :
    ScanOrd st := by
  induction st with
  | nil => exact List.Pairwise.nil
  | cons a t ih =>
    exact List.Pairwise.cons
      (fun b hb hro => absurd hro (h b (List.mem_cons_of_mem _ hb)))
      (ih (fun p hp => h p (List.mem_cons_of_mem _ hp)))

theorem scanOrd_put {st : Store} (hOrd : ScanOrd st) {k : String}
    (hfresh : ∀ w, (k, w) ∉ st) (v : Value) : ScanOrd (st.put k v) := by
  obtain ⟨P, Q, e1, e2, e3, e4⟩ := put_split hfresh v
  rw [e2]
  rw [e1] at hOrd
  obtain ⟨hP, hQ, hPQ⟩ := List.pairwise_append.mp hOrd
  refine List.pairwise_append.mpr ⟨hP, ?_, ?_⟩
  · refine List.Pairwise.cons ?_ hQ
    intro b hb hro
    rcases e4 with rfl | ⟨q0, Q2, rfl, hq0⟩
    · exact absurd hb (List.not_mem_nil _)
    · rcases List.mem_cons.mp hb with rfl | hb2
      · exact strLt_asymm hq0
      · by_cases h6 : strLt b.1 k = true
        · exact absurd (strLt_trans h6 hq0)
            (by simp [(List.pairwise_cons.mp hQ).1 b hb2 hro])
        · simpa using h6
  · intro a ha b hb
    rcases List.mem_cons.mp hb with rfl | hb2
    · exact fun _ => e3 a ha
    · exact hPQ a ha b hb2

theorem scan_no_ro {st : Store} {g : String} (hg : "ro/".data <+: g.data)
    (hno : ∀ p ∈ st, ¬ roPre p.1) : st.scanKeys g (g ++ "￰") = [] := by
  rw [Store.scanKeys]
  refine List.filter_eq_nil_iff.mpr ?_
  intro k hk hcond
  obtain ⟨p, hp, rfl⟩ := List.mem_map.mp hk
  obtain ⟨hc1, hc2⟩ : strLt p.1 g = false ∧ strLt p.1 (g ++ "￰") = true := by
    simpa using hcond
  exact hno p hp (pre_trans hg (pre_of_scanRange hc1 hc2))

/-- Scanning after a fresh `put`: over a `ScanOrd` store the scan splits
around the new key, every older scanned key falling strictly on one side. -/
theorem scan_put_split {st : Store} {k g : String} (v : Value)
    (hfresh : ∀ w, (k, w) ∉ st) (hOrd : ScanOrd st)
    (hg : "ro/".data <+: g.data) :
    ∃ L1 L2,
      st.scanKeys g (g ++ "￰") = L1 ++ L2 ∧
      (st.put k v).scanKeys g (g ++ "￰") =
        L1 ++ (if (!strLt k g && strLt k (g ++ "￰")) = true then [k] else [])
          ++ L2 ∧
      (∀ e ∈ L1, strLt e k = true) ∧ (∀ e ∈ L2, strLt k e = true) := by
  obtain ⟨P, Q, e1, e2, e3, e4⟩ := put_split hfresh v
  refine ⟨(P.map (fun p => p.1)).filter
            (fun k2 => !strLt k2 g && strLt k2 (g ++ "￰")),
          (Q.map (fun p => p.1)).filter
            (fun k2 => !strLt k2 g && strLt k2 (g ++ "￰")),
          ?_, ?_, ?_, ?_⟩
  · rw [e1, Store.scanKeys, List.map_append, List.filter_append]
  · rw [e2, Store.scanKeys, List.map_append, List.filter_append]
    by_cases hc : (!strLt k g && strLt k (g ++ "￰")) = true
    · simp [hc]
    · simp [hc]
  · intro e he
    obtain ⟨he1, -⟩ := List.mem_filter.mp he
    obtain ⟨p, hp, rfl⟩ := List.mem_map.mp he1
    have hne : p.1 ≠ k := by
      intro e5
      apply hfresh p.2
      rw [← e5]
      rw [e1]
      exact List.mem_append_left _ hp
    rcases strLt_total hne with h4 | h4
    · exact h4
    · exact absurd h4 (by simp [e3 p hp])
  · intro e he
    obtain ⟨he1, hcond⟩ := List.mem_filter.mp he
    obtain ⟨p, hp, rfl⟩ := List.mem_map.mp he1
    obtain ⟨hc1, hc2⟩ : strLt p.1 g = false ∧ strLt p.1 (g ++ "￰") = true := by
      simpa using hcond
    have hro : roPre p.1 := pre_trans hg (pre_of_scanRange hc1 hc2)
    have hne : k ≠ p.1 := by
      intro e5
      apply hfresh p.2
      rw [e5]
      rw [e1]
      exact List.mem_append_right _ hp
    rcases e4 with rfl | ⟨q0, Q2, rfl, hq0⟩
    · exact absurd hp (List.not_mem_nil _)
    · rcases List.mem_cons.mp hp with rfl | hp2
      · exact hq0
      · rw [e1] at hOrd
        have h5 : strLt p.1 q0.1 = false :=
          (List.pairwise_cons.mp (List.pairwise_append.mp hOrd).2.1).1 p hp2 hro
        rcases strLt_total hne with h4 | h4
        · exact h4
        · exact absurd (strLt_trans h4 hq0) (by simp [h5])

/-- A `put` outside the scan range leaves the scan unchanged. -/
theorem scan_put_out {st : Store} {k g : String} (v : Value)
    (hfresh : ∀ w, (k, w) ∉ st) (hOrd : ScanOrd st)
    (hg : "ro/".data <+: g.data)
    (hc : (!strLt k g && strLt k (g ++ "￰")) = false) :
    (st.put k v).scanKeys g (g ++ "￰") = st.scanKeys g (g ++ "￰") := by
  obtain ⟨L1, L2, e1, e2, -, -⟩ := scan_put_split v hfresh hOrd hg
  rw [e2, if_neg (by simp [hc]), e1]
  simp

/-- An in-range `put` into a store whose scan is empty yields a one-key
scan. -/
theorem scan_put_first {st : Store} {k g : String} (v : Value)
    (hfresh : ∀ w, (k, w) ∉ st) (hOrd : ScanOrd st)
    (hg : "ro/".data <+: g.data)
    (hc : (!strLt k g && strLt k (g ++ "￰")) = true)
    (hemp : st.scanKeys g (g ++ "￰") = []) :
    (st.put k v).scanKeys g (g ++ "￰") = [k] := by
  obtain ⟨L1, L2, e1, e2, -, -⟩ := scan_put_split v hfresh hOrd hg
  rw [hemp] at e1
  obtain ⟨h1, h2⟩ := List.append_eq_nil.mp e1.symm
  subst h1
  subst h2
  rw [e2, if_pos hc]
  rfl

/-- An in-range `put` into a store whose scan holds one key yields the two
keys in ascending order. -/
theorem scan_put_second {st : Store} {k x1 g : String} (v : Value)
    (hfresh : ∀ w, (k, w) ∉ st) (hOrd : ScanOrd st)
    (hg : "ro/".data <+: g.data)
    (hc : (!strLt k g && strLt k (g ++ "￰")) = true)
    (hone : st.scanKeys g (g ++ "￰") = [x1]) :
    (st.put k v).scanKeys g (g ++ "￰") =
      if strLt x1 k = true then [x1, k] else [k, x1] := by
  obtain ⟨L1, L2, e1, e2, hL1, hL2⟩ := scan_put_split v hfresh hOrd hg
  rw [hone] at e1
  rw [e2, if_pos hc]
  cases L1 with
  | nil =>
    have h2 : L2 = [x1] := by simpa using e1.symm
    subst h2
    have h3 : strLt k x1 = true := hL2 x1 (List.mem_cons_self _ _)
    rw [if_neg (by simp [strLt_asymm h3])]
    rfl
  | cons z zs =>
    rw [List.cons_append] at e1
    injection e1 with h1 h2
    subst h1
    obtain ⟨h3, h4⟩ := List.append_eq_nil.mp h2.symm
    subst h3
    subst h4
    have h5 : strLt x1 k = true := hL1 x1 (List.mem_cons_self _ _)
    rw [if_pos h5]
    rfl

set_option maxHeartbeats 1000000 in
/-- C5: from any store with no link entries (no `ro/`-prefixed keys), after
`addOnlookerApp(A,B,S1)` and `addOnlookerApp(A,B,S2)` with `A ≠ B` slash-free
and `S1 ≠ S2` slash-free, `allOnlookerLinks(A).onlookers` is exactly
`{(B,S1), (B,S2)}` and `allOnlookerLinks(B).creators` is exactly
`{(A,S1), (A,S2)}`, each listed in the store's lexicographic key order (so
ordered by app name, since the keys share their prefix). -/
theorem C5_allLinks_two_grants (st0 : Store)
    (h0 : ∀ k : String, ("ro/".data <+: k.data) → st0.get k = none)
    {A B S1 S2 : String} (hA : SafeId A) (hB : SafeId B)
    (hS1 : SafeId S1) (hS2 : SafeId S2) (hAB : A ≠ B) (hSne : S1 ≠ S2) :
    (allOnlookerLinks (addOnlookerApp (addOnlookerApp st0 A B S1).1 A B S2).1
        A).onlookers
        = (if strLt S1 S2 = true
            then [(B, S1), (B, S2)] else [(B, S2), (B, S1)]) ∧
    (allOnlookerLinks (addOnlookerApp (addOnlookerApp st0 A B S1).1 A B S2).1
        B).creators
        = (if strLt S1 S2 = true
            then [(A, S1), (A, S2)] else [(A, S2), (A, S1)]) := by
  have hno : ∀ p ∈ st0, ¬ roPre p.1 := by
    intro p hp hro
    have h1 : (st0.get p.1).isSome := Store.get_isSome_iff.mpr ⟨p.2, hp⟩
    rw [h0 p.1 hro] at h1
    simp at h1
  have hff : fwdKey A B S1 ≠ fwdKey A B S2 :=
    fun e => hSne (fwdKey_inj hA hA hB hB e).2.2
  have hrr : revKey A B S1 ≠ revKey A B S2 :=
    fun e => hSne (revKey_inj hA hA hB hB e).2.2
  have hfr1 : ∀ w, (fwdKey A B S1, w) ∉ st0 :=
    fun w hw => hno _ hw (ro_pre_fwdKey A B S1)
  have hfr2 : ∀ w, (revKey A B S1, w) ∉
      st0.put (fwdKey A B S1) (Value.str "1") := by
    intro w hw
    rcases Store.mem_put hw with he | hw2
    · exact fwdKey_ne_revKey A B S1 A B S1 (congrArg Prod.fst he).symm
    · exact hno _ hw2 (ro_pre_revKey A B S1)
  have hfr3 : ∀ w, (fwdKey A B S2, w) ∉
      (st0.put (fwdKey A B S1) (Value.str "1")).put (revKey A B S1)
        (Value.str "1") := by
    intro w hw
    rcases Store.mem_put hw with he | hw2
    · exact fwdKey_ne_revKey A B S2 A B S1 (congrArg Prod.fst he)
    · rcases Store.mem_put hw2 with he2 | hw3
      · exact hff (congrArg Prod.fst he2).symm
      · exact hno _ hw3 (ro_pre_fwdKey A B S2)
  have hfr4 : ∀ w, (revKey A B S2, w) ∉
      ((st0.put (fwdKey A B S1) (Value.str "1")).put (revKey A B S1)
        (Value.str "1")).put (fwdKey A B S2) (Value.str "1") := by
    intro w hw
    rcases Store.mem_put hw with he | hw2
    · exact fwdKey_ne_revKey A B S2 A B S2 (congrArg Prod.fst he).symm
    · rcases Store.mem_put hw2 with he2 | hw3
      · exact hrr (congrArg Prod.fst he2).symm
      · rcases Store.mem_put hw3 with he3 | hw4
        · exact fwdKey_ne_revKey A B S1 A B S2 (congrArg Prod.fst he3).symm
        · exact hno _ hw4 (ro_pre_revKey A B S2)
  have hO0 : ScanOrd st0 := scanOrd_of_no_ro hno
  have hO1 := scanOrd_put hO0 hfr1 (Value.str "1")
  have hO2 := scanOrd_put hO1 hfr2 (Value.str "1")
  have hO3 := scanOrd_put hO2 hfr3 (Value.str "1")
  have hstore : (addOnlookerApp (addOnlookerApp st0 A B S1).1 A B S2).1 =
      (((st0.put (fwdKey A B S1) (Value.str "1")).put (revKey A B S1)
        (Value.str "1")).put (fwdKey A B S2) (Value.str "1")).put
        (revKey A B S2) (Value.str "1") := rfl
  rw [hstore]
  constructor
  · have s0 : st0.scanKeys (crePre A) (crePre A ++ "￰") = [] :=
      scan_no_ro (ro_pre_crePre A) hno
    have s1 := scan_put_first (Value.str "1") hfr1 hO0 (ro_pre_crePre A)
      (fwd_creRange A B S1) s0
    have s2 := (scan_put_out (Value.str "1") hfr2 hO1 (ro_pre_crePre A)
      (rev_creRange_false A B S1 A)).trans s1
    have s3 := scan_put_second (Value.str "1") hfr3 hO2 (ro_pre_crePre A)
      (fwd_creRange A B S2) s2
    have s4 := (scan_put_out (Value.str "1") hfr4 hO3 (ro_pre_crePre A)
      (rev_creRange_false A B S2 A)).trans s3
    simp only [allOnlookerLinks]
    rw [s4, strLt_fwd_fwd]
    by_cases hS : strLt S1 S2 = true
    · rw [if_pos hS, if_pos hS]
      simp [jsSplit_fwdKey hA hB hS1, jsSplit_fwdKey hA hB hS2,
        jsIdx_four, jsIdx_six]
    · rw [if_neg hS, if_neg hS]
      simp [jsSplit_fwdKey hA hB hS1, jsSplit_fwdKey hA hB hS2,
        jsIdx_four, jsIdx_six]
  · have s0 : st0.scanKeys (onlSidePre B) (onlSidePre B ++ "￰") = [] :=
      scan_no_ro (ro_pre_onlSidePre B) hno
    have s1 := (scan_put_out (Value.str "1") hfr1 hO0 (ro_pre_onlSidePre B)
      (fwd_onlSideRange_false A B S1 B)).trans s0
    have s2 := scan_put_first (Value.str "1") hfr2 hO1 (ro_pre_onlSidePre B)
      (rev_onlSideRange A B S1) s1
    have s3 := (scan_put_out (Value.str "1") hfr3 hO2 (ro_pre_onlSidePre B)
      (fwd_onlSideRange_false A B S2 B)).trans s2
    have s4 := scan_put_second (Value.str "1") hfr4 hO3 (ro_pre_onlSidePre B)
      (rev_onlSideRange A B S2) s3
    simp only [allOnlookerLinks]
    rw [s4, strLt_rev_rev]
    by_cases hS : strLt S1 S2 = true
    · rw [if_pos hS, if_pos hS]
      simp [jsSplit_revKey hA hB hS1, jsSplit_revKey hA hB hS2,
        jsIdx_four, jsIdx_six]
    · rw [if_neg hS, if_neg hS]
      simp [jsSplit_revKey hA hB hS1, jsSplit_revKey hA hB hS2,
        jsIdx_four, jsIdx_six]

/-- Witness for C5 at a store holding one account record, with `A = "a"`,
`B = "b"`, `S1 = "s1"`, `S2 = "s2"`. -/
theorem C5_allLinks_two_grants_witness :
    (allOnlookerLinks (addOnlookerApp (addOnlookerApp
        [("gotanda-x", Value.user ⟨"gotanda-x", [], none⟩)] "a" "b" "s1").1
        "a" "b" "s2").1 "a").onlookers
      = (if strLt "s1" "s2" = true
          then [("b", "s1"), ("b", "s2")] else [("b", "s2"), ("b", "s1")]) ∧
    (allOnlookerLinks (addOnlookerApp (addOnlookerApp
        [("gotanda-x", Value.user ⟨"gotanda-x", [], none⟩)] "a" "b" "s1").1
        "a" "b" "s2").1 "b").creators
      = (if strLt "s1" "s2" = true
          then [("a", "s1"), ("a", "s2")] else [("a", "s2"), ("a", "s1")]) :=
  C5_allLinks_two_grants [("gotanda-x", Value.user ⟨"gotanda-x", [], none⟩)]
    (by
      intro k hk
      by_cases he : ("gotanda-x" : String) = k
      · subst he
        exact absurd hk (by decide)
      · rw [Store.get_cons, if_neg (by simpa using he)]
        rfl)
    (by decide) (by decide) (by decide) (by decide) (by decide) (by decide)

/-! ### C6: the token-mapping invariant -/

/-- A token key, as issued by `createApiToken`: `token-<random>`. -/
def isTokenKey (s : String) : Prop := "token-".data <+: s.data

instance (s : String) : Decidable (isTokenKey s) :=
  inferInstanceAs (Decidable ("token-".data <+: s.data))

/-- One token operation of the User Directory, with its arguments; the
random draw of `createApiToken` is carried explicitly. -/
inductive DirOp where
  | create (gotandaId name draw : String)
  | delTok (gotandaId name : String)
  | delAll (gotandaId : String)
deriving DecidableEq, Repr

def applyDirOp (st : Store) : DirOp → Store
  | .create g n d => (createApiToken st g n d).1
  | .delTok g n => (deleteApiToken st g n).1
  | .delAll g => (deleteAllApiTokens st g).1

def runDirOps (st : Store) (ops : List DirOp) : Store := ops.foldl applyDirOp st

/-- The spec's token-mapping invariant: a token mapping `T ↦ G` exists in
the store exactly when the account record stored at `G` lists an entry with
token value `T`. -/
def TokInv (st : Store) : Prop :=
  ∀ T G : String, isTokenKey T →
    (st.get T = some (.str G) ↔
      ∃ u, st.get G = some (.user u) ∧ ∃ e ∈ u.apiTokens, e.token = T)

/-- Every token listed by a stored record is a `token-` key. -/
def TokWF (st : Store) : Prop :=
  ∀ G u, st.get G = some (.user u) → ∀ e ∈ u.apiTokens, isTokenKey e.token

/-- No stored record lists the same token value twice. -/
def TokNodup (st : Store) : Prop :=
  ∀ G u, st.get G = some (.user u) → (u.apiTokens.map (fun e => e.token)).Nodup

/-- The per-operation conditions under which the invariant is preserved: the
account argument is a key that directly holds an account record (not an
identity or token mapping to be chased), and a generated token is fresh. -/
def DirOpOK (st : Store) : DirOp → Prop
  | .create g _ d => (∃ u, st.get g = some (.user u)) ∧ st.get ("token-" ++ d) = none
  | .delTok g _ => ∃ u, st.get g = some (.user u)
  | .delAll g => ∃ u, st.get g = some (.user u)

def ValidRun : Store → List DirOp → Prop
  | _, [] => True
  | st, op :: rest => DirOpOK st op ∧ ValidRun (applyDirOp st op) rest

theorem getUser_record {st : Store} {g : String} {u : UserRec}
    (h : st.get g = some (.user u)) : getUser st g true = some u := by
  rw [getUser, h]
  rfl

theorem applyBatch_append (st : Store) (l1 l2 : List BatchOp) :
    applyBatch st (l1 ++ l2) = applyBatch (applyBatch st l1) l2 := by
  simp [applyBatch, List.foldl_append]

/-- If the invariant holds, every token listed by the record at `G` has its
mapping pointing back at `G`. -/
theorem token_maps_back {st : Store} (hWF : TokWF st) (hInv : TokInv st)
    {G : String} {u : UserRec} (hg : st.get G = some (.user u))
    {e : TokenEntry} (he : e ∈ u.apiTokens) : st.get e.token = some (.str G) :=
  (hInv e.token G (hWF G u hg e he)).mpr ⟨u, hg, e, he, rfl⟩

/-- Specialization of the invariant at a key that holds a record. -/
theorem inv_iff_at_record {st : Store} (hInv : TokInv st) {T G : String}
    {u : UserRec} (hT : isTokenKey T) (hg : st.get G = some (.user u)) :
    (st.get T = some (.str G)) ↔ ∃ e ∈ u.apiTokens, e.token = T := by
  rw [hInv T G hT]
  constructor
  · rintro ⟨u2, hu2, he⟩
    rw [hg] at hu2
    injection hu2 with hu2
    injection hu2 with hu2
    rw [← hu2] at he
    exact he
  · intro he
    exact ⟨u, hg, he⟩

/-- The store after a successful `createApiToken`. -/
theorem createApiToken_run {st : Store} {g n d : String} {u : UserRec}
    (hg : st.get g = some (.user u)) :
    (createApiToken st g n d).1 =
      (st.put ("token-" ++ d) (.str g)).put g
        (.user { u with apiTokens := (u.apiTokens ++ [⟨"token-" ++ d, n⟩]) }) := by
  simp only [createApiToken, getUser_record hg]
  rfl

theorem get_create {st : Store} {g n d : String} {u : UserRec}
    (hg : st.get g = some (.user u)) (X : String) :
    (createApiToken st g n d).1.get X =
      if X = g
      then some (.user { u with apiTokens := (u.apiTokens ++ [⟨"token-" ++ d, n⟩]) })
      else if X = "token-" ++ d then some (.str g)
      else st.get X := by
  rw [createApiToken_run hg]
  by_cases h1 : X = g
  · subst h1
    rw [if_pos rfl, Store.get_put_self]
  · rw [if_neg h1, Store.get_put_ne _ (fun e => h1 e.symm)]
    by_cases h2 : X = "token-" ++ d
    · subst h2
      rw [if_pos rfl, Store.get_put_self]
    · rw [if_neg h2, Store.get_put_ne _ (fun e => h2 e.symm)]

/-- `deleteApiToken` does not write when nothing matches. -/
theorem deleteApiToken_noop {st : Store} {g n : String} {u : UserRec}
    (hg : st.get g = some (.user u))
    (hnone : u.apiTokens.filter (fun o => o.name == n) = []) :
    (deleteApiToken st g n).1 = st := by
  simp only [deleteApiToken, getUser_record hg]
  by_cases hlen : (u.apiTokens.length == 0) = true
  · rw [if_pos hlen]
  · have heq : ((u.apiTokens.filter (fun o => !(o.name == n))).length ==
        u.apiTokens.length) = true := by
      simp only [beq_iff_eq]
      exact (length_filter_not_eq_iff u.apiTokens (fun e => e.name == n)).mpr hnone
    rw [if_neg hlen, if_pos heq]

/-- The store after a `deleteApiToken` that matched something. -/
theorem deleteApiToken_run {st : Store} {g n : String} {u : UserRec}
    (hg : st.get g = some (.user u))
    (hsome : u.apiTokens.filter (fun o => o.name == n) ≠ []) :
    (deleteApiToken st g n).1 =
      (applyBatch st
        (((u.apiTokens.filter (fun o => o.name == n)).map (fun o => o.token)).map
          BatchOp.del)).put g
        (.user { u with apiTokens := (u.apiTokens.filter (fun o => !(o.name == n))) }) := by
  have hlen : (u.apiTokens.length == 0) = false := by
    rw [beq_eq_false_iff_ne]
    intro e
    rw [List.length_eq_zero] at e
    rw [e] at hsome
    simp at hsome
  have heq : ((u.apiTokens.filter (fun o => !(o.name == n))).length ==
      u.apiTokens.length) = false := by
    rw [beq_eq_false_iff_ne]
    exact fun e =>
      hsome ((length_filter_not_eq_iff u.apiTokens (fun e => e.name == n)).mp e)
  simp only [deleteApiToken, getUser_record hg]
  rw [if_neg (by simp [hlen]), if_neg (by simp [heq])]
  have e : (((u.apiTokens.filter (fun o => o.name == n)).map (fun o => o.token)).map
      BatchOp.del) = (u.apiTokens.filter (fun o => o.name == n)).map
      (fun o => BatchOp.del o.token) := by
    rw [List.map_map]
    rfl
  rw [e, applyBatch_append]
  rfl

theorem get_delTok {st : Store} {g n : String} {u : UserRec}
    (hg : st.get g = some (.user u))
    (hsome : u.apiTokens.filter (fun o => o.name == n) ≠ []) (X : String) :
    (deleteApiToken st g n).1.get X =
      if X = g
      then some (.user { u with apiTokens := (u.apiTokens.filter (fun o => !(o.name == n))) })
      else if X ∈ (u.apiTokens.filter (fun o => o.name == n)).map (fun o => o.token)
      then none
      else st.get X := by
  rw [deleteApiToken_run hg hsome]
  by_cases h1 : X = g
  · subst h1
    rw [if_pos rfl, Store.get_put_self]
  · rw [if_neg h1, Store.get_put_ne _ (fun e => h1 e.symm), get_applyBatch_dels]

/-- `deleteAllApiTokens` does not write when the list is already empty. -/
theorem deleteAllApiTokens_noop {st : Store} {g : String} {u : UserRec}
    (hg : st.get g = some (.user u)) (hnone : u.apiTokens = []) :
    (deleteAllApiTokens st g).1 = st := by
  simp only [deleteAllApiTokens, getUser_record hg]
  rw [if_pos (by simp [hnone])]

/-- The store after a `deleteAllApiTokens` that had tokens to delete. -/
theorem deleteAllApiTokens_run {st : Store} {g : String} {u : UserRec}
    (hg : st.get g = some (.user u)) (hsome : u.apiTokens ≠ []) :
    (deleteAllApiTokens st g).1 =
      (applyBatch st ((u.apiTokens.map (fun o => o.token)).map BatchOp.del)).put g
        (.user { u with apiTokens := ([] : List TokenEntry) }) := by
  have hlen : (u.apiTokens.length == 0) = false := by
    rw [beq_eq_false_iff_ne]
    intro e
    rw [List.length_eq_zero] at e
    exact hsome e
  simp only [deleteAllApiTokens, getUser_record hg]
  rw [if_neg (by simp [hlen])]
  have e : ((u.apiTokens.map (fun o => o.token)).map BatchOp.del)
      = u.apiTokens.map (fun o => BatchOp.del o.token) := by
    rw [List.map_map]
    rfl
  rw [e, applyBatch_append]
  rfl

theorem get_delAll {st : Store} {g : String} {u : UserRec}
    (hg : st.get g = some (.user u)) (hsome : u.apiTokens ≠ []) (X : String) :
    (deleteAllApiTokens st g).1.get X =
      if X = g then some (.user { u with apiTokens := ([] : List TokenEntry) })
      else if X ∈ u.apiTokens.map (fun o => o.token) then none
      else st.get X := by
  rw [deleteAllApiTokens_run hg hsome]
  by_cases h1 : X = g
  · subst h1
    rw [if_pos rfl, Store.get_put_self]
  · rw [if_neg h1, Store.get_put_ne _ (fun e => h1 e.symm), get_applyBatch_dels]

theorem nodup_map_inj {α β : Type} {f : α → β} : ∀ {l : List α},
    (l.map f).Nodup → ∀ {x y : α}, x ∈ l → y ∈ l → f x = f y → x = y
  | [], _, x, y, hx, _, _ => absurd hx (List.not_mem_nil _)
  | a :: l, d, x, y, hx, hy, hf => by
    rw [List.map_cons, List.nodup_cons] at d
    rcases List.mem_cons.mp hx with rfl | hx2
    · rcases List.mem_cons.mp hy with rfl | hy2
      · rfl
      · exact absurd (hf ▸ List.mem_map_of_mem f hy2) d.1
    · rcases List.mem_cons.mp hy with rfl | hy2
      · exact absurd (hf ▸ List.mem_map_of_mem f hx2) d.1
      · exact nodup_map_inj d.2 hx2 hy2 hf

/-- `createApiToken` preserves the invariant when the account argument holds
a record directly and the drawn token is fresh. -/
theorem dirInv_create {st : Store} (hWF : TokWF st) (hND : TokNodup st)
    (hInv : TokInv st) {g n d : String} {u : UserRec}
    (hg : st.get g = some (.user u)) (hfresh : st.get ("token-" ++ d) = none) :
    TokWF (createApiToken st g n d).1 ∧ TokNodup (createApiToken st g n d).1 ∧
      TokInv (createApiToken st g n d).1 := by
  have hTtok : isTokenKey ("token-" ++ d) := ⟨d.data, by simp [String.data_append]⟩
  have hTg : ("token-" ++ d) ≠ g := by
    intro e
    rw [e, hg] at hfresh
    cases hfresh
  have hnotg : ∀ e ∈ u.apiTokens, e.token ≠ g := by
    intro e he heq
    have h2 := token_maps_back hWF hInv hg he
    rw [heq, hg] at h2
    exact absurd h2 (by simp)
  have hnotT : ∀ e ∈ u.apiTokens, e.token ≠ "token-" ++ d := by
    intro e he heq
    have h2 := token_maps_back hWF hInv hg he
    rw [heq, hfresh] at h2
    exact Option.noConfusion h2
  refine ⟨?_, ?_, ?_⟩
  · intro G2 u2 hG2 e he
    rw [get_create hg G2] at hG2
    by_cases h1 : G2 = g
    · rw [if_pos h1] at hG2
      injection hG2 with h2
      injection h2 with h2
      rw [← h2] at he
      rcases List.mem_append.mp he with he2 | he2
      · exact hWF g u hg e he2
      · simp only [List.mem_singleton] at he2
        rw [he2]
        exact hTtok
    · rw [if_neg h1] at hG2
      by_cases h2 : G2 = "token-" ++ d
      · rw [if_pos h2] at hG2
        exact absurd hG2 (by simp)
      · rw [if_neg h2] at hG2
        exact hWF G2 u2 hG2 e he
  · intro G2 u2 hG2
    rw [get_create hg G2] at hG2
    by_cases h1 : G2 = g
    · rw [if_pos h1] at hG2
      injection hG2 with h2
      injection h2 with h2
      rw [← h2]
      show ((u.apiTokens ++ [(⟨"token-" ++ d, n⟩ : TokenEntry)]).map
        (fun e => e.token)).Nodup
      rw [List.map_append]
      apply List.Nodup.append (hND g u hg) (List.nodup_singleton _)
      intro x hx1 hx2
      simp only [List.map_cons, List.map_nil, List.mem_singleton] at hx2
      obtain ⟨e, he, het⟩ := List.mem_map.mp hx1
      subst hx2
      exact hnotT e he het
    · rw [if_neg h1] at hG2
      by_cases h2 : G2 = "token-" ++ d
      · rw [if_pos h2] at hG2
        exact absurd hG2 (by simp)
      · rw [if_neg h2] at hG2
        exact hND G2 u2 hG2
  · intro T2 G2 hT2
    rw [get_create hg T2, get_create hg G2]
    by_cases hT2g : T2 = g
    · rw [if_pos hT2g]
      constructor
      · intro h
        exact absurd h (by simp)
      · rintro ⟨u2, hu2, e, he, het⟩
        exfalso
        by_cases hG2g : G2 = g
        · rw [if_pos hG2g] at hu2
          injection hu2 with h2
          injection h2 with h2
          rw [← h2] at he
          rcases List.mem_append.mp he with he2 | he2
          · exact hnotg e he2 (het.trans hT2g)
          · simp only [List.mem_singleton] at he2
            have e1 : e.token = "token-" ++ d := by rw [he2]
            exact hTg (e1.symm.trans (het.trans hT2g))
        · rw [if_neg hG2g] at hu2
          by_cases hG2T : G2 = "token-" ++ d
          · rw [if_pos hG2T] at hu2
            exact absurd hu2 (by simp)
          · rw [if_neg hG2T] at hu2
            have h2 := token_maps_back hWF hInv hu2 he
            rw [het, hT2g, hg] at h2
            exact absurd h2 (by simp)
    · rw [if_neg hT2g]
      by_cases hT2T : T2 = "token-" ++ d
      · rw [if_pos hT2T]
        by_cases hG2g : G2 = g
        · subst hG2g
          rw [if_pos rfl]
          constructor
          · intro h
            exact ⟨_, rfl, ⟨"token-" ++ d, n⟩,
              List.mem_append_right _ (List.mem_singleton_self _), hT2T.symm⟩
          · intro h
            rfl
        · rw [if_neg hG2g]
          constructor
          · intro h
            injection h with h2
            injection h2 with h2
            exact absurd h2.symm hG2g
          · rintro ⟨u2, hu2, e, he, het⟩
            exfalso
            by_cases hG2T : G2 = "token-" ++ d
            · rw [if_pos hG2T] at hu2
              exact absurd hu2 (by simp)
            · rw [if_neg hG2T] at hu2
              have h2 := token_maps_back hWF hInv hu2 he
              rw [het, hT2T, hfresh] at h2
              exact Option.noConfusion h2
      · rw [if_neg hT2T]
        by_cases hG2g : G2 = g
        · subst hG2g
          rw [if_pos rfl]
          rw [inv_iff_at_record hInv hT2 hg]
          constructor
          · rintro ⟨e, he, het⟩
            exact ⟨_, rfl, e, List.mem_append_left _ he, het⟩
          · rintro ⟨u2, hu2, e, he, het⟩
            injection hu2 with h2
            injection h2 with h2
            rw [← h2] at he
            rcases List.mem_append.mp he with he2 | he2
            · exact ⟨e, he2, het⟩
            · simp only [List.mem_singleton] at he2
              exfalso
              apply hT2T
              rw [← het, he2]
        · rw [if_neg hG2g]
          by_cases hG2T : G2 = "token-" ++ d
          · rw [if_pos hG2T]
            constructor
            · intro h
              exfalso
              obtain ⟨u2, hu2, -⟩ := (hInv T2 G2 hT2).mp h
              rw [hG2T, hfresh] at hu2
              exact Option.noConfusion hu2
            · rintro ⟨u2, hu2, -⟩
              exact absurd hu2 (by simp)
          · rw [if_neg hG2T]
            exact hInv T2 G2 hT2

/-- `deleteApiToken` preserves the invariant when the account argument holds
a record directly. -/
theorem dirInv_delTok {st : Store} (hWF : TokWF st) (hND : TokNodup st)
    (hInv : TokInv st) {g n : String} {u : UserRec}
    (hg : st.get g = some (.user u)) :
    TokWF (deleteApiToken st g n).1 ∧ TokNodup (deleteApiToken st g n).1 ∧
      TokInv (deleteApiToken st g n).1 := by
  by_cases hmatch : u.apiTokens.filter (fun o => o.name == n) = []
  · rw [deleteApiToken_noop hg hmatch]
    exact ⟨hWF, hND, hInv⟩
  refine ⟨?_, ?_, ?_⟩
  · intro G2 u2 hG2 e he
    rw [get_delTok hg hmatch G2] at hG2
    by_cases h1 : G2 = g
    · rw [if_pos h1] at hG2
      injection hG2 with h2
      injection h2 with h2
      rw [← h2] at he
      exact hWF g u hg e (List.mem_of_mem_filter he)
    · rw [if_neg h1] at hG2
      by_cases h2 : G2 ∈ (u.apiTokens.filter (fun o => o.name == n)).map
          (fun o => o.token)
      · rw [if_pos h2] at hG2
        exact Option.noConfusion hG2
      · rw [if_neg h2] at hG2
        exact hWF G2 u2 hG2 e he
  · intro G2 u2 hG2
    rw [get_delTok hg hmatch G2] at hG2
    by_cases h1 : G2 = g
    · rw [if_pos h1] at hG2
      injection hG2 with h2
      injection h2 with h2
      rw [← h2]
      show ((u.apiTokens.filter (fun o => !(o.name == n))).map
        (fun e => e.token)).Nodup
      exact (hND g u hg).sublist ((List.filter_sublist _).map _)
    · rw [if_neg h1] at hG2
      by_cases h2 : G2 ∈ (u.apiTokens.filter (fun o => o.name == n)).map
          (fun o => o.token)
      · rw [if_pos h2] at hG2
        exact Option.noConfusion hG2
      · rw [if_neg h2] at hG2
        exact hND G2 u2 hG2
  · intro T2 G2 hT2
    rw [get_delTok hg hmatch T2, get_delTok hg hmatch G2]
    by_cases hT2g : T2 = g
    · rw [if_pos hT2g]
      constructor
      · intro h
        exact absurd h (by simp)
      · rintro ⟨u2, hu2, e, he, het⟩
        exfalso
        by_cases hG2g : G2 = g
        · rw [if_pos hG2g] at hu2
          injection hu2 with h2
          injection h2 with h2
          rw [← h2] at he
          have h3 := token_maps_back hWF hInv hg (List.mem_of_mem_filter he)
          rw [het, hT2g, hg] at h3
          exact absurd h3 (by simp)
        · rw [if_neg hG2g] at hu2
          by_cases hG2m : G2 ∈ (u.apiTokens.filter (fun o => o.name == n)).map
              (fun o => o.token)
          · rw [if_pos hG2m] at hu2
            exact Option.noConfusion hu2
          · rw [if_neg hG2m] at hu2
            have h3 := token_maps_back hWF hInv hu2 he
            rw [het, hT2g, hg] at h3
            exact absurd h3 (by simp)
    · rw [if_neg hT2g]
      by_cases hT2m : T2 ∈ (u.apiTokens.filter (fun o => o.name == n)).map
          (fun o => o.token)
      · rw [if_pos hT2m]
        obtain ⟨em, hem, hemt⟩ := List.mem_map.mp hT2m
        constructor
        · intro h
          exact Option.noConfusion h
        · rintro ⟨u2, hu2, e, he, het⟩
          exfalso
          by_cases hG2g : G2 = g
          · rw [if_pos hG2g] at hu2
            injection hu2 with h2
            injection h2 with h2
            rw [← h2] at he
            have heq : e = em := nodup_map_inj (hND g u hg)
              (List.mem_of_mem_filter he) (List.mem_of_mem_filter hem)
              (by rw [het, hemt])
            have h3 := List.of_mem_filter he
            have h4 := List.of_mem_filter hem
            rw [heq, h4] at h3
            exact absurd h3 (by decide)
          · rw [if_neg hG2g] at hu2
            by_cases hG2m : G2 ∈ (u.apiTokens.filter (fun o => o.name == n)).map
                (fun o => o.token)
            · rw [if_pos hG2m] at hu2
              exact Option.noConfusion hu2
            · rw [if_neg hG2m] at hu2
              have t1 := token_maps_back hWF hInv hu2 he
              have t2 := token_maps_back hWF hInv hg (List.mem_of_mem_filter hem)
              rw [het] at t1
              rw [hemt] at t2
              rw [t2] at t1
              injection t1 with t3
              injection t3 with t3
              exact hG2g t3.symm
      · rw [if_neg hT2m]
        by_cases hG2g : G2 = g
        · subst hG2g
          rw [if_pos rfl]
          rw [inv_iff_at_record hInv hT2 hg]
          constructor
          · rintro ⟨e, he, het⟩
            refine ⟨_, rfl, e, ?_, het⟩
            show e ∈ u.apiTokens.filter (fun o => !(o.name == n))
            rw [List.mem_filter]
            refine ⟨he, ?_⟩
            by_cases hn : (e.name == n) = true
            · exfalso
              exact hT2m (List.mem_map.mpr ⟨e, List.mem_filter.mpr ⟨he, hn⟩, het⟩)
            · simp at hn
              simp [hn]
          · rintro ⟨u2, hu2, e, he, het⟩
            injection hu2 with h2
            injection h2 with h2
            rw [← h2] at he
            exact ⟨e, List.mem_of_mem_filter he, het⟩
        · rw [if_neg hG2g]
          by_cases hG2m : G2 ∈ (u.apiTokens.filter (fun o => o.name == n)).map
              (fun o => o.token)
          · rw [if_pos hG2m]
            constructor
            · intro h
              exfalso
              obtain ⟨u2, hu2, -⟩ := (hInv T2 G2 hT2).mp h
              obtain ⟨em2, hem2, hem2t⟩ := List.mem_map.mp hG2m
              have h3 := token_maps_back hWF hInv hg (List.mem_of_mem_filter hem2)
              rw [hem2t] at h3
              rw [h3] at hu2
              exact absurd hu2 (by simp)
            · rintro ⟨u2, hu2, -⟩
              exact Option.noConfusion hu2
          · rw [if_neg hG2m]
            exact hInv T2 G2 hT2

/-- `deleteAllApiTokens` preserves the invariant when the account argument
holds a record directly. -/
theorem dirInv_delAll {st : Store} (hWF : TokWF st) (hND : TokNodup st)
    (hInv : TokInv st) {g : String} {u : UserRec}
    (hg : st.get g = some (.user u)) :
    TokWF (deleteAllApiTokens st g).1 ∧ TokNodup (deleteAllApiTokens st g).1 ∧
      TokInv (deleteAllApiTokens st g).1 := by
  by_cases hnil : u.apiTokens = []
  · rw [deleteAllApiTokens_noop hg hnil]
    exact ⟨hWF, hND, hInv⟩
  refine ⟨?_, ?_, ?_⟩
  · intro G2 u2 hG2 e he
    rw [get_delAll hg hnil G2] at hG2
    by_cases h1 : G2 = g
    · rw [if_pos h1] at hG2
      injection hG2 with h2
      injection h2 with h2
      rw [← h2] at he
      exact absurd he (List.not_mem_nil _)
    · rw [if_neg h1] at hG2
      by_cases h2 : G2 ∈ u.apiTokens.map (fun o => o.token)
      · rw [if_pos h2] at hG2
        exact Option.noConfusion hG2
      · rw [if_neg h2] at hG2
        exact hWF G2 u2 hG2 e he
  · intro G2 u2 hG2
    rw [get_delAll hg hnil G2] at hG2
    by_cases h1 : G2 = g
    · rw [if_pos h1] at hG2
      injection hG2 with h2
      injection h2 with h2
      rw [← h2]
      show (([] : List TokenEntry).map (fun e => e.token)).Nodup
      simp
    · rw [if_neg h1] at hG2
      by_cases h2 : G2 ∈ u.apiTokens.map (fun o => o.token)
      · rw [if_pos h2] at hG2
        exact Option.noConfusion hG2
      · rw [if_neg h2] at hG2
        exact hND G2 u2 hG2
  · intro T2 G2 hT2
    rw [get_delAll hg hnil T2, get_delAll hg hnil G2]
    by_cases hT2g : T2 = g
    · rw [if_pos hT2g]
      constructor
      · intro h
        exact absurd h (by simp)
      · rintro ⟨u2, hu2, e, he, het⟩
        exfalso
        by_cases hG2g : G2 = g
        · rw [if_pos hG2g] at hu2
          injection hu2 with h2
          injection h2 with h2
          rw [← h2] at he
          exact absurd he (List.not_mem_nil _)
        · rw [if_neg hG2g] at hu2
          by_cases hG2m : G2 ∈ u.apiTokens.map (fun o => o.token)
          · rw [if_pos hG2m] at hu2
            exact Option.noConfusion hu2
          · rw [if_neg hG2m] at hu2
            have h3 := token_maps_back hWF hInv hu2 he
            rw [het, hT2g, hg] at h3
            exact absurd h3 (by simp)
    · rw [if_neg hT2g]
      by_cases hT2m : T2 ∈ u.apiTokens.map (fun o => o.token)
      · rw [if_pos hT2m]
        obtain ⟨em, hem, hemt⟩ := List.mem_map.mp hT2m
        constructor
        · intro h
          exact Option.noConfusion h
        · rintro ⟨u2, hu2, e, he, het⟩
          exfalso
          by_cases hG2g : G2 = g
          · rw [if_pos hG2g] at hu2
            injection hu2 with h2
            injection h2 with h2
            rw [← h2] at he
            exact absurd he (List.not_mem_nil _)
          · rw [if_neg hG2g] at hu2
            by_cases hG2m : G2 ∈ u.apiTokens.map (fun o => o.token)
            · rw [if_pos hG2m] at hu2
              exact Option.noConfusion hu2
            · rw [if_neg hG2m] at hu2
              have t1 := token_maps_back hWF hInv hu2 he
              have t2 := token_maps_back hWF hInv hg hem
              rw [het] at t1
              rw [hemt] at t2
              rw [t2] at t1
              injection t1 with t3
              injection t3 with t3
              exact hG2g t3.symm
      · rw [if_neg hT2m]
        by_cases hG2g : G2 = g
        · subst hG2g
          rw [if_pos rfl]
          rw [inv_iff_at_record hInv hT2 hg]
          constructor
          · rintro ⟨e, he, het⟩
            exact absurd (List.mem_map.mpr ⟨e, he, het⟩) hT2m
          · rintro ⟨u2, hu2, e, he, het⟩
            injection hu2 with h2
            injection h2 with h2
            rw [← h2] at he
            exact absurd he (List.not_mem_nil _)
        · rw [if_neg hG2g]
          by_cases hG2m : G2 ∈ u.apiTokens.map (fun o => o.token)
          · rw [if_pos hG2m]
            constructor
            · intro h
              exfalso
              obtain ⟨u2, hu2, -⟩ := (hInv T2 G2 hT2).mp h
              obtain ⟨em2, hem2, hem2t⟩ := List.mem_map.mp hG2m
              have h3 := token_maps_back hWF hInv hg hem2
              rw [hem2t] at h3
              rw [h3] at hu2
              exact absurd hu2 (by simp)
            · rintro ⟨u2, hu2, -⟩
              exact Option.noConfusion hu2
          · rw [if_neg hG2m]
            exact hInv T2 G2 hT2

/-- C6 as stated is false on the code.  From the tokenless store holding one
account record at `gotanda-1`, run `createApiToken("gotanda-1", "a")`
(drawing `token-T1`) and then `deleteApiToken("token-T1", "a")` — the second
call hands the freshly issued *token* as the account id.  `getUser` happily
resolves it through the token mapping, and the operation then deletes the
mapping and writes the shrunk record back *at the token key*: afterwards the
record at `gotanda-1` still lists `token-T1`, but no mapping for `token-T1`
exists. -/
theorem C6_counterexample :
    ¬ TokInv (runDirOps [("gotanda-1", Value.user ⟨"gotanda-1", [], none⟩)]
      [DirOp.create "gotanda-1" "a" "T1", DirOp.delTok "token-T1" "a"]) := by
  intro h
  have h2 := (h "token-T1" "gotanda-1" (by decide)).mpr
    ⟨⟨"gotanda-1", [⟨"token-T1", "a"⟩], none⟩, by decide,
     ⟨"token-T1", "a"⟩, by decide, rfl⟩
  exact absurd h2 (by decide)

/-- C6 amended: starting from a store whose account records hold no tokens
and which holds no token mappings, and running any sequence of token
operations in which every operation's account-id argument is a key that
directly holds an account record at the time of the call and every
generated token draw is fresh, after each completed operation a token
mapping `T ↦ G` exists in the store exactly when the record at `G` lists an
entry with token value `T`; each operation updates record and mappings in
one atomic batch. -/
theorem C6_token_invariant (st0 : Store)
    (hrec : ∀ G u, st0.get G = some (.user u) → u.apiTokens = [])
    (htok : ∀ T, isTokenKey T → st0.get T = none)
    (ops : List DirOp) (hvalid : ValidRun st0 ops) :
    ∀ i : Nat, TokInv (runDirOps st0 (ops.take i)) := by
  have hstep : ∀ (st : Store) (op : DirOp),
      TokWF st ∧ TokNodup st ∧ TokInv st → DirOpOK st op →
      TokWF (applyDirOp st op) ∧ TokNodup (applyDirOp st op) ∧
        TokInv (applyDirOp st op) := by
    intro st op h hok
    cases op with
    | create g n d =>
      obtain ⟨⟨u, hu⟩, hfresh⟩ := hok
      exact dirInv_create h.1 h.2.1 h.2.2 hu hfresh
    | delTok g n =>
      obtain ⟨u, hu⟩ := hok
      exact dirInv_delTok h.1 h.2.1 h.2.2 hu
    | delAll g =>
      obtain ⟨u, hu⟩ := hok
      exact dirInv_delAll h.1 h.2.1 h.2.2 hu
  have hinit : TokWF st0 ∧ TokNodup st0 ∧ TokInv st0 := by
    refine ⟨?_, ?_, ?_⟩
    · intro G u hG e he
      rw [hrec G u hG] at he
      exact absurd he (List.not_mem_nil _)
    · intro G u hG
      rw [hrec G u hG]
      simp
    · intro T G hT
      rw [htok T hT]
      constructor
      · intro h
        exact Option.noConfusion h
      · rintro ⟨u, hu, e, he, -⟩
        rw [hrec G u hu] at he
        exact absurd he (List.not_mem_nil _)
  have hrun : ∀ (ops2 : List DirOp) (st : Store),
      TokWF st ∧ TokNodup st ∧ TokInv st → ValidRun st ops2 →
      ∀ i, TokInv (runDirOps st (ops2.take i)) := by
    intro ops2
    induction ops2 with
    | nil =>
      intro st h _ i
      simpa [runDirOps] using h.2.2
    | cons op rest ih =>
      intro st h hv i
      cases i with
      | zero => simpa [runDirOps] using h.2.2
      | succ j =>
        rw [List.take_succ_cons]
        show TokInv (runDirOps (applyDirOp st op) (rest.take j))
        exact ih (applyDirOp st op) (hstep st op h hv.1) hv.2 j
  exact hrun ops st0 hinit hvalid

/-- Witness for the amended C6: one account, a token created under a fresh
draw and then deleted by name through the account key. -/
theorem C6_token_invariant_witness :
    TokInv (runDirOps [("gotanda-1", Value.user ⟨"gotanda-1", [], none⟩)]
      ([DirOp.create "gotanda-1" "a" "T1", DirOp.delTok "gotanda-1" "a"].take 2)) :=
  C6_token_invariant [("gotanda-1", Value.user ⟨"gotanda-1", [], none⟩)]
    (by
      intro G u h
      by_cases he : ("gotanda-1" : String) = G
      · subst he
        have h2 : Value.user (⟨"gotanda-1", [], none⟩ : UserRec) = Value.user u := by
          have h3 := h
          rw [Store.get_cons, if_pos (by simp)] at h3
          injection h3
        injection h2 with h2
        rw [← h2]
      · rw [Store.get_cons, if_neg (by simpa using he)] at h
        exact Option.noConfusion h)
    (by
      intro T hT
      by_cases he : ("gotanda-1" : String) = T
      · subst he
        exact absurd hT (by decide)
      · rw [Store.get_cons, if_neg (by simpa using he)]
        rfl)
    [DirOp.create "gotanda-1" "a" "T1", DirOp.delTok "gotanda-1" "a"]
    (by
      refine ⟨⟨⟨⟨"gotanda-1", [], none⟩, by decide⟩, by decide⟩, ⟨?_, trivial⟩⟩
      exact ⟨⟨"gotanda-1", [⟨"token-T1", "a"⟩], none⟩, by decide⟩)
    2

end Gotanda
